import Mathlib

/-!
# Verification of the CSV ingestion and aggregation core

This file is a shallow embedding, in Lean 4, of the CSV parsing and
time-series aggregation core of the repository (the TypeScript functions
`detectCompoundFormat`, `parseStandardCSV`, `parseCompoundCSV`,
`cleanHeaders`, `parseCSVLine`, `parseCSV` of the CSV parser module, and
the `processedData` aggregation of the chart component).

Modelling conventions:
* JavaScript strings are modelled as `List Char`; `String.trim`,
  `String.split`, `String.includes` and the few anchored regular
  expressions used by the source are translated into explicit
  `List Char` functions.
* JavaScript numbers are idealised as exact rationals `ℚ`: `parseFloat`
  is modelled as returning the exactly-represented decimal value of the
  longest numeric prefix (`none` for `NaN`; the non-finite literal
  `"Infinity"` is treated as a parse failure).
* JavaScript objects (`Record<string, any>`) are modelled as association
  lists with assign-or-overwrite update (`objSet`), which preserves the
  first-insertion position of a key exactly as JS objects do.
* Thrown errors are modelled with `Except`.
-/

/- `Rat.mul`, `Rat.add`, ... are `@[irreducible]` upstream, which blocks
`decide` from evaluating concrete parser runs whose cells coerce to
numbers; restore the default reducibility (the kernel ignores
irreducibility anyway, so this changes no proof obligations). -/
set_option allowUnsafeReducibility true in
attribute [semireducible] Rat.mul Rat.add Rat.sub Rat.inv Rat.ofScientific

/-- JS whitespace test used by `String.trim` (ASCII fragment, which is all
the source's inputs exercise). -/
def ws (c : Char) : Bool := c.isWhitespace

/-- Model of JavaScript `String.prototype.trim`: drop whitespace from both
ends. -/
def jsTrim (l : List Char) : List Char :=
  ((l.dropWhile ws).reverse.dropWhile ws).reverse

/-- A line (or any char list) is non-blank when it contains a
non-whitespace character; this is the reading of "non-empty line" used by
the parser's own emptiness checks. -/
def nonBlank (l : List Char) : Bool := l.any (fun c => !(ws c))

/-- Model of JavaScript `String.prototype.split` with a single-character
separator: always returns at least one (possibly empty) piece. -/
def splitOnChar (sep : Char) : List Char → List (List Char)
  | [] => [[]]
  | c :: cs =>
    match splitOnChar sep cs with
    | [] => [[]]
    | piece :: rest =>
      if c = sep then [] :: piece :: rest else (c :: piece) :: rest

/-- Decimal digit characters of a natural number (for the duplicate-header
suffix `" k"`). -/
def natToChars (n : Nat) : List Char := Nat.toDigits 10 n

/-- Sum of a list of rationals, in the left-fold order of a JS
`reduce((a, b) => a + b, 0)`. -/
def sumQ (l : List ℚ) : ℚ := l.foldl (· + ·) 0

/-! ## Model of JavaScript `parseFloat` -/

/-- Numeric value of a list of decimal digits. -/
def digitsVal (ds : List Char) : Nat :=
  ds.foldl (fun n c => 10 * n + (c.toNat - '0'.toNat)) 0

/-- Exponent part of a `parseFloat` literal: `e`/`E`, optional sign,
digits; an exponent with no digits is not consumed (JS backtracks to the
mantissa). -/
def parseExponent : List Char → Int
  | 'e' :: r => parseSignedDigits r
  | 'E' :: r => parseSignedDigits r
  | _ => 0
where
  parseSignedDigits : List Char → Int
    | '-' :: r =>
      let ds := r.takeWhile Char.isDigit
      if ds.isEmpty then 0 else -(digitsVal ds : Int)
    | '+' :: r =>
      let ds := r.takeWhile Char.isDigit
      if ds.isEmpty then 0 else (digitsVal ds : Int)
    | r =>
      let ds := r.takeWhile Char.isDigit
      if ds.isEmpty then 0 else (digitsVal ds : Int)

/-- Model of JavaScript `parseFloat`: skip leading whitespace, optional
sign, longest decimal-literal prefix (`digits [. digits] [exponent]`),
`none` when no digit is found (`NaN`).  Values are exact rationals. -/
def parseFloat (s : List Char) : Option ℚ :=
  let s1 := s.dropWhile ws
  let (sgn, s2) : ℚ × List Char :=
    match s1 with
    | '-' :: r => (-1, r)
    | '+' :: r => (1, r)
    | r => (1, r)
  let intDs := s2.takeWhile Char.isDigit
  let s3 := s2.dropWhile Char.isDigit
  let (fracDs, s4) : List Char × List Char :=
    match s3 with
    | '.' :: r => (r.takeWhile Char.isDigit, r.dropWhile Char.isDigit)
    | r => ([], r)
  if intDs.isEmpty && fracDs.isEmpty then none
  else
    let mant : ℚ := (digitsVal intDs : ℚ) + (digitsVal fracDs : ℚ) / ((10 : ℚ) ^ fracDs.length)
    some (sgn * mant * (10 : ℚ) ^ (parseExponent s4))

/-! ## Typed values and row objects -/

/-- A typed cell value: a number or the original string. -/
inductive Value where
  | num (q : ℚ)
  | str (s : List Char)
deriving DecidableEq, Repr

/-- A row object: association list from header name to typed value,
in JS-object key insertion order. -/
abbrev Row := List (List Char × Value)

/-- JS object property read `row[k]` (keys of a JS object are unique, so
first match is the match). -/
def objGet : Row → List Char → Option Value
  | [], _ => none
  | p :: r, k => if p.1 = k then some p.2 else objGet r k

/-- JS object property write `row[k] = v`: overwrite in place when the key
exists, append otherwise (JS objects keep the first-insertion position of
an overwritten key). -/
def objSet : Row → List Char → Value → Row
  | [], k, v => [(k, v)]
  | p :: r, k, v => if p.1 = k then (k, v) :: r else p :: objSet r k v

/-- The shared numeric-coercion rule of both row parsers:
`const numValue = parseFloat(value); isNaN(numValue) ? value : numValue`. -/
def coerceValue (v : List Char) : Value :=
  match parseFloat v with
  | some q => .num q
  | none => .str v

/-! ## Line tokenizer (`parseCSVLine`) -/

/-- Model of `replace(/^"|"$/g, '')`: remove one leading double quote if present,
and one trailing double quote from what remains. -/
def stripOuterQuotes (l : List Char) : List Char :=
  let l1 :=
    match l with
    | [] => []
    | c :: r => if c = '"' then r else c :: r
  match l1.reverse with
  | [] => l1
  | c :: r => if c = '"' then r.reverse else l1

/-- The character loop of `parseCSVLine`: a double quote toggles the
in-quotes state (and is not emitted); a comma outside quotes ends the
current cell; every other character is appended to the current cell. -/
def parseCSVLineRaw : List Char → List Char → Bool → List (List Char)
  | [], cur, _ => [cur]
  | c :: cs, cur, inQuotes =>
    if c = '"' then parseCSVLineRaw cs cur (!inQuotes)
    else if c = ',' ∧ inQuotes = false then cur :: parseCSVLineRaw cs [] false
    else parseCSVLineRaw cs (cur ++ [c]) inQuotes

/-- The tokenizer `parseCSVLine`: tokenize one line, then post-process each cell with
`replace(/^"|"$/g, '').trim()`. -/
def parseCSVLine (line : List Char) : List (List Char) :=
  (parseCSVLineRaw line [] false).map (fun cell => jsTrim (stripOuterQuotes cell))

/-! ## Format detector -/

/-- Semantics of the anchored regex `/^[^,]*;[^,]*/`: there is a semicolon
before the first comma (i.e. the first comma-delimited cell contains a
semicolon). -/
def hasSemiBeforeComma : List Char → Bool
  | [] => false
  | c :: cs => if c = ';' then true else if c = ',' then false else hasSemiBeforeComma cs

/-- The detector `detectCompoundFormat`: both of the first two lines must match
`/^[^,]*;[^,]*/`. -/
def detectCompoundFormat (firstRow secondRow : List Char) : Bool :=
  hasSemiBeforeComma firstRow && hasSemiBeforeComma secondRow

/-! ## Header normalizer (`cleanHeaders`) -/

/-- The literal device tag of the regex `/^IOITSecure\d+\s*>\s*/g`. -/
def deviceTag : List Char := "IOITSecure".data

/-- Model of `replace(/^IOITSecure\d+\s*>\s*/g, '')`: strip the anchored prefix
`IOITSecure`, one or more digits, optional whitespace, `>`, optional
whitespace; leave the header unchanged when the pattern does not match
(the anchor makes at most one replacement possible). -/
def stripDeviceTag (h : List Char) : List Char :=
  if deviceTag.isPrefixOf h then
    let r := h.drop deviceTag.length
    let ds := r.takeWhile Char.isDigit
    if ds.isEmpty then h
    else
      match (r.drop ds.length).dropWhile ws with
      | '>' :: r2 => r2.dropWhile ws
      | _ => h
  else h

/-- The seen-name counter map of `cleanHeaders` (a JS `Map`, queried by
key only, so insertion order is irrelevant but kept anyway). -/
abbrev SeenMap := List (List Char × Nat)

/-- Lookup `seen.get(k)` (a JS `Map` has unique keys). -/
def seenGet : SeenMap → List Char → Option Nat
  | [], _ => none
  | p :: m, k => if p.1 = k then some p.2 else seenGet m k

/-- Update `seen.set(k, v)`: overwrite in place, append when absent. -/
def seenSet : SeenMap → List Char → Nat → SeenMap
  | [], k, v => [(k, v)]
  | p :: m, k, v => if p.1 = k then (k, v) :: m else p :: seenSet m k v

/-- The per-header cleaning step of `cleanHeaders`:
`header.trim()` followed by the device-prefix strip. -/
def cleanedName (h : List Char) : List Char := stripDeviceTag (jsTrim h)

/-- The loop body of `cleanHeaders`: trim, strip the device prefix, then
deduplicate with the seen-name counter (`"name"`, `"name 2"`, `"name 3"`,
...). -/
def cleanHeadersAux : List (List Char) → SeenMap → List (List Char)
  | [], _ => []
  | h :: hs, seen =>
    let c := cleanedName h
    match seenGet seen c with
    | some k =>
      (c ++ ' ' :: natToChars (k + 1)) :: cleanHeadersAux hs (seenSet seen c (k + 1))
    | none =>
      c :: cleanHeadersAux hs (seenSet seen c 1)

/-- The header normalizer `cleanHeaders`. -/
def cleanHeaders (headers : List (List Char)) : List (List Char) :=
  cleanHeadersAux headers []

/-! ## Row parsers and `parseCSV` -/

/-- Source format tag (`originalFormat`). -/
inductive Format where
  | standard
  | compound
deriving DecidableEq, Repr

/-- The result record `ParsedCSVResult`. -/
structure ParsedCSVResult where
  headers : List (List Char)
  data : List Row
  isMultiMetric : Bool
  originalFormat : Format
deriving DecidableEq, Repr

/-- The two hard parse failures of `parseCSV` (`'Empty CSV content'` and
`'CSV must have at least a header row and one data row'`; the spec calls
them `EmptyInputError` and `InsufficientRowsError`). -/
inductive ParseError where
  | emptyInput
  | insufficientRows
deriving DecidableEq, Repr

/-- The row construction of `parseStandardCSV`:
`headers.forEach((header, i) => { if (i < values.length) row[header] = coerce(values[i]) })`. -/
def rowOfStandardLine (headers : List (List Char)) (line : List Char) : Row :=
  let values := parseCSVLine line
  headers.enum.foldl
    (fun row p =>
      match values.get? p.1 with
      | some v => objSet row p.2 (coerceValue v)
      | none => row)
    []

/-- The standard row parser `parseStandardCSV`. -/
def parseStandardCSV (csvText : List Char) : ParsedCSVResult :=
  let lines := splitOnChar '\n' (jsTrim csvText)
  let headers := (splitOnChar ',' (lines.headD [])).map (fun h => stripOuterQuotes (jsTrim h))
  let data := ((lines.drop 1).map (rowOfStandardLine headers)).filter (fun r => !r.isEmpty)
  { headers := headers, data := data, isMultiMetric := false, originalFormat := .standard }

/-- The header flattening of `parseCompoundCSV`: a first-row cell that
contains a semicolon is split into several (trimmed) header names. -/
def compoundRawHeaders (firstRow : List (List Char)) : List (List Char) :=
  firstRow.foldr
    (fun cell acc =>
      (if cell.contains ';' then (splitOnChar ';' cell).map jsTrim else [jsTrim cell]) ++ acc)
    []

/-- The inner `values.forEach` of the compound row loop: consume one
header slot per semicolon-delimited sub-value, while slots remain. -/
def consumeValues (headers : List (List Char)) (vals : List (List Char))
    (st : Row × Nat) : Row × Nat :=
  vals.foldl
    (fun st v =>
      if st.2 < headers.length then
        (objSet st.1 (headers.getD st.2 []) (coerceValue v), st.2 + 1)
      else st)
    st

/-- One iteration of the `cells.forEach((cell, cellIndex) => ...)` loop of
`parseCompoundCSV`: a semicolon cell is split and consumed value by
value; any other cell consumes one slot, with the first comma-cell
(`cellIndex === 0`) kept as a string when it looks date-like
(contains `/`, `:` or `-`). -/
def compoundStep (headers : List (List Char)) (st : Row × Nat) (p : Nat × List Char) :
    Row × Nat :=
  if p.2.contains ';' then
    consumeValues headers ((splitOnChar ';' p.2).map jsTrim) st
  else if st.2 < headers.length then
    let v := jsTrim p.2
    if p.1 == 0 && (v.contains '/' || v.contains ':' || v.contains '-') then
      (objSet st.1 (headers.getD st.2 []) (.str v), st.2 + 1)
    else
      (objSet st.1 (headers.getD st.2 []) (coerceValue v), st.2 + 1)
  else st

/-- The whole `cells.forEach` loop of `parseCompoundCSV`, producing one
row object. -/
def rowOfCompoundCells (headers : List (List Char)) (cells : List (List Char)) : Row :=
  (cells.enum.foldl (compoundStep headers) ([], 0)).1

/-- The compound row parser `parseCompoundCSV`. -/
def parseCompoundCSV (csvText : List Char) : Except ParseError ParsedCSVResult :=
  let lines := splitOnChar '\n' (jsTrim csvText)
  if lines.length < 2 then .error .insufficientRows
  else
    let firstRow := parseCSVLine (lines.headD [])
    let headers := cleanHeaders (compoundRawHeaders firstRow)
    let data := (lines.drop 1).foldl
      (fun acc l =>
        let line := jsTrim l
        if line.isEmpty then acc
        else
          let row := rowOfCompoundCells headers (parseCSVLine line)
          if row.isEmpty then acc else acc ++ [row])
      []
    .ok { headers := headers, data := data, isMultiMetric := true, originalFormat := .compound }

/-- The entry point `parseCSV`: emptiness check, minimum-row check, format detection on
the first two lines of the trimmed text, then dispatch (the `try/catch`
of the source only re-wraps an inner error's message and is not
modelled separately). -/
def parseCSV (csvText : List Char) : Except ParseError ParsedCSVResult :=
  if (jsTrim csvText).isEmpty then .error .emptyInput
  else
    let lines := splitOnChar '\n' (jsTrim csvText)
    if lines.length < 2 then .error .insufficientRows
    else if detectCompoundFormat (lines.headD []) (lines.getD 1 []) then
      parseCompoundCSV csvText
    else
      .ok (parseStandardCSV csvText)

/-! ## Time-series aggregator (`processedData`, grouped path)

The chart component's `processedData` memo, for `timeGrouping ≠ 'none'`
and a date-like x-axis, buckets rows by a key derived from the parsed
date of the time column, collects per-value-column numeric observations,
applies the aggregation method, rounds to two decimals, and sorts with a
granularity-specific comparator.  Date parsing (`new Date`), the bucket
key and label (day-of-week / ISO-ish week / month) and the final
comparator are modelled as parameters, since the claims quantify over
every granularity. -/

/-- One bucket of the `grouped` map: label, per-column collected numeric
observations, and the shared row count. -/
structure Bucket where
  key : List Char
  label : List Char
  values : List (List Char × List ℚ)
  count : Nat
deriving DecidableEq, Repr

/-- Lookup `group.values.get(k)` with the absent case read as the empty list
(a JS `Map` has unique keys). -/
def bucketGet : List (List Char × List ℚ) → List Char → List ℚ
  | [], _ => []
  | p :: vs, k => if p.1 = k then p.2 else bucketGet vs k

/-- Model of `if (!group.values.has(k)) group.values.set(k, []); group.values.get(k).push(q)`. -/
def bucketPush : List (List Char × List ℚ) → List Char → ℚ → List (List Char × List ℚ)
  | [], k, q => [(k, [q])]
  | p :: vs, k, q => if p.1 = k then (p.1, p.2 ++ [q]) :: vs else p :: bucketPush vs k q

/-- One step of the `yAxesToAggregate.forEach`: push the row's value for
one selected y-axis when it is a number. -/
def pushRowValue (row : Row) (vs : List (List Char × List ℚ)) (y : List Char) :
    List (List Char × List ℚ) :=
  match objGet row y with
  | some (.num q) => bucketPush vs y q
  | _ => vs

/-- The per-row bucket update: push the row's numeric value for every
selected y-axis, then `group.count++`. -/
def updateBucket (yAxes : List (List Char)) (row : Row) (b : Bucket) : Bucket :=
  { b with
    values := yAxes.foldl (pushRowValue row) b.values,
    count := b.count + 1 }

/-- In-place update of the bucket stored under key `k` (a JS `Map` has
unique keys, so the first match is the entry). -/
def updateGroups (f : Bucket → Bucket) (k : List Char) : List Bucket → List Bucket
  | [] => []
  | b :: gs => if b.key = k then f b :: gs else b :: updateGroups f k gs

/-- Model of `if (!grouped.has(key)) grouped.set(key, fresh); update grouped.get(key)`,
on a map kept in key-insertion order. -/
def addRowToGroups (yAxes : List (List Char)) (groups : List Bucket)
    (k lab : List Char) (row : Row) : List Bucket :=
  let gs := if groups.any (fun b => b.key = k) then groups
            else groups ++ [{ key := k, label := lab, values := [], count := 0 }]
  updateGroups (updateBucket yAxes row) k gs

/-- One step of the `data.forEach` grouping loop: a row whose time-column
value does not parse as a date (`parseDate` returns `null`) is skipped. -/
def groupStep {D : Type} (pd : Value → Option D) (key lab : D → List Char)
    (x : List Char) (yAxes : List (List Char)) (gs : List Bucket) (row : Row) :
    List Bucket :=
  match (objGet row x).bind pd with
  | none => gs
  | some d => addRowToGroups yAxes gs (key d) (lab d) row

/-- The whole `data.forEach` grouping loop. -/
def groupRows {D : Type} (pd : Value → Option D) (key lab : D → List Char)
    (x : List Char) (yAxes : List (List Char)) (rows : List Row) : List Bucket :=
  rows.foldl (groupStep pd key lab x yAxes) []

/-- The aggregation method selector. -/
inductive AggMethod where
  | sum
  | average
  | count
deriving DecidableEq, Repr

/-- Model of `parseFloat(aggregatedValue.toFixed(2))`: round to two decimal
places (ties away from the smaller value, as `toFixed` picks the larger
candidate). -/
def round2 (q : ℚ) : ℚ := ((⌊q * 100 + 1 / 2⌋ : ℤ) : ℚ) / 100

/-- The per-column aggregation: `0` when the bucket collected no numeric
observation for the column, else sum / mean / shared row count. -/
def aggValue (method : AggMethod) (cnt : Nat) (vals : List ℚ) : ℚ :=
  if vals.isEmpty then 0
  else
    match method with
    | .sum => sumQ vals
    | .average => sumQ vals / (vals.length : ℚ)
    | .count => (cnt : ℚ)

/-- The `_originalKey` field name of the output rows. -/
def originalKeyField : List Char := "_originalKey".data

/-- One aggregated output row:
`{ [xAxis]: label, _originalKey: key }` plus one rounded numeric field
per selected y-axis. -/
def toAggRow (x : List Char) (yAxes : List (List Char)) (method : AggMethod)
    (b : Bucket) : Row :=
  yAxes.foldl
    (fun row y => objSet row y (.num (round2 (aggValue method b.count (bucketGet b.values y)))))
    (objSet (objSet [] x (.str b.label)) originalKeyField (.str b.key))

/-- Stable insertion of `x` after every element not strictly greater
(model of the stable JS `Array.prototype.sort`). -/
def insertStable {α : Type} (lt : α → α → Bool) (x : α) : List α → List α
  | [] => [x]
  | y :: ys => if lt x y then x :: y :: ys else y :: insertStable lt x ys

/-- Stable sort by a strict comparator (the granularity-specific
`result.sort(...)` of the source, comparator abstracted). -/
def sortByJS {α : Type} (lt : α → α → Bool) (l : List α) : List α :=
  l.foldl (fun acc x => insertStable lt x acc) []

/-- The grouped branch of `processedData`: group, aggregate per bucket,
sort. -/
def aggregate {D : Type} (pd : Value → Option D) (key lab : D → List Char)
    (lt : Row → Row → Bool) (x : List Char) (yAxes : List (List Char))
    (method : AggMethod) (rows : List Row) : List Row :=
  sortByJS lt ((groupRows pd key lab x yAxes rows).map (toAggRow x yAxes method))

/-! ## Spec-side reference definitions

These definitions follow the specification's wording; the refinement
theorems below compare them with the source-translated definitions. -/

/-- Building a row by writing a list of header/value pairs in order
(declarative counterpart of the parsers' slot-consumption loops). -/
def buildRow (ps : List (List Char × Value)) : Row :=
  ps.foldl (fun r p => objSet r p.1 p.2) []

/-- Declarative flattening of a compound data line into consumption
slots: a semicolon cell contributes one (trimmed) sub-value per
semicolon-delimited piece, any other cell contributes its trimmed text
as a single slot; the Boolean tags the slots that are eligible for the
date-guard (a whole, semicolon-free cell at comma position 0). -/
def compoundSlots (cells : List (List Char)) : List (Bool × List Char) :=
  cells.enum.foldr
    (fun p acc =>
      (if p.2.contains ';' then
        ((splitOnChar ';' p.2).map jsTrim).map (fun v => (false, v))
      else
        [(p.1 == 0, jsTrim p.2)]) ++ acc)
    []

/-- Generalisation of `compoundSlots` to an already-enumerated cell list (the
form the induction proofs walk over). -/
def slotsOfE (ecells : List (Nat × List Char)) : List (Bool × List Char) :=
  ecells.foldr
    (fun p acc =>
      (if p.2.contains ';' then
        ((splitOnChar ';' p.2).map jsTrim).map (fun v => (false, v))
      else
        [(p.1 == 0, jsTrim p.2)]) ++ acc)
    []

/-- The typed value of one slot: date-guarded first cells that contain
`/`, `:` or `-` stay strings, every other slot is numeric-coerced. -/
def slotValue (s : Bool × List Char) : Value :=
  if s.1 && (s.2.contains '/' || s.2.contains ':' || s.2.contains '-') then .str s.2
  else coerceValue s.2

/-- Quote-aware top-level comma split (spec wording for the tokenizer:
a double quote toggles the in-quotes state; a comma inside quotes is
literal content).  Quote characters are kept in the spans. -/
def splitTopLevel (inQuotes : Bool) : List Char → List (List Char)
  | [] => [[]]
  | c :: cs =>
    if c = '"' then
      match splitTopLevel (!inQuotes) cs with
      | [] => [[]]
      | piece :: rest => (c :: piece) :: rest
    else if c = ',' ∧ inQuotes = false then
      [] :: splitTopLevel false cs
    else
      match splitTopLevel inQuotes cs with
      | [] => [[]]
      | piece :: rest => (c :: piece) :: rest

/-- Replace the first element of a list (used to state how the tokenizer
accumulates the current cell onto the first span of the rest). -/
def mapHead {A : Type} (f : A → A) : List A → List A
  | [] => []
  | x :: xs => f x :: xs

/-- Declarative form of header normalization, walking the raw list with
the already-processed prefix `pre`: each position receives its cleaned
name, suffixed with a space and the 1-based occurrence count when the
same cleaned name already occurred among the earlier positions. -/
def specCleanFrom (pre : List (List Char)) : List (List Char) → List (List Char)
  | [] => []
  | h :: t =>
    let c := cleanedName h
    let prior := (pre.map cleanedName).count c
    (if prior = 0 then c else c ++ ' ' :: natToChars (prior + 1)) :: specCleanFrom (pre ++ [h]) t

/-- Declarative form of header normalization: the first occurrence of a
cleaned name is unchanged, the k-th occurrence is suffixed with a space
and `k`. -/
def specCleanedList (hs : List (List Char)) : List (List Char) :=
  specCleanFrom [] hs

/-- The input text contains (at least) two non-blank lines: somewhere a
newline has a non-whitespace character before it and after it. -/
def TwoNonBlankLines (t : List Char) : Prop :=
  ∃ a b, t = a ++ '\n' :: b ∧ nonBlank a = true ∧ nonBlank b = true

/-- The numeric observations of value column `c` across the rows whose
time-column value parses as a date. -/
def numericObs {D : Type} (pd : Value → Option D) (x c : List Char)
    (rows : List Row) : List ℚ :=
  (rows.filter (fun r => ((objGet r x).bind pd).isSome)).filterMap
    (fun r =>
      match objGet r c with
      | some (.num q) => some q
      | _ => none)

/-- The numeric observation a row contributes to one value column:
a singleton when the row binds the column to a number, empty otherwise. -/
def rowNum (row : Row) (c : List Char) : List ℚ :=
  match objGet row c with
  | some (.num q) => [q]
  | _ => []

/-- Bucket totals of one value column (used by the conservation law). -/
def totalVals (c : List Char) (gs : List Bucket) : ℚ :=
  sumQ (gs.map (fun b => sumQ (bucketGet b.values c)))

/-- Total of the shared bucket row counts. -/
def totalCount (gs : List Bucket) : Nat :=
  (gs.map Bucket.count).sum

/-- Decidable equality for `Except` results, to let concrete parser runs
be checked by `decide`. -/
instance {e a : Type} [DecidableEq e] [DecidableEq a] : DecidableEq (Except e a) :=
  fun x y =>
    match x, y with
    | .error u, .error v =>
      if h : u = v then .isTrue (by rw [h]) else .isFalse (by intro hc; cases hc; exact h rfl)
    | .ok u, .ok v =>
      if h : u = v then .isTrue (by rw [h]) else .isFalse (by intro hc; cases hc; exact h rfl)
    | .error _, .ok _ => .isFalse (by intro hc; cases hc)
    | .ok _, .error _ => .isFalse (by intro hc; cases hc)

/-! ## Concrete evaluations settling the falsified claims -/

/-- C1: the spec's compound-parse scenario does not hold of the code.
On `"TIME;V1;V2\n2025-01-01 00:00:00,10;20"` the detector requires a
semicolon before the first comma of the *second* line, finds none, and
the text is parsed in standard mode: one header `"TIME;V1;V2"`, one row
mapping it to the number `2025` (the `parseFloat` prefix of the date),
`isMultiMetric = false`, format `standard` — not the headers
`["TIME","V1","V2"]`, row `{TIME:…, V1:10, V2:20}`, `isMultiMetric =
true`, format `compound` that the claim states. -/
theorem c1_scenario_parses_standard :
    parseCSV ("TIME;V1;V2\n2025-01-01 00:00:00,10;20".data) =
      .ok { headers := ["TIME;V1;V2".data],
            data := [[("TIME;V1;V2".data, Value.num 2025)]],
            isMultiMetric := false,
            originalFormat := .standard } := by
  decide

/-- C2, counterexample: on the standard text `"A,B\nx"` the data line has
fewer cells than headers, and the missing trailing header `"B"` is
*omitted* from the row — the key is absent (`objGet` is `none`), not
mapped to the empty string as the claim states. -/
theorem c2_counterexample :
    parseCSV ("A,B\nx".data) =
      .ok { headers := ["A".data, "B".data],
            data := [[("A".data, Value.str "x".data)]],
            isMultiMetric := false,
            originalFormat := .standard }
    ∧ objGet [("A".data, Value.str "x".data)] ("B".data) = none := by
  constructor
  · decide
  · decide

/-- C5, counterexample: deduplication does not guarantee a duplicate-free
output.  Renaming the second `"V"` to `"V 2"` collides with the raw
header `"V 2"`, whose own first occurrence is left unchanged, so
`["V","V","V 2"]` normalizes to `["V","V 2","V 2"]`, which contains two
equal names. -/
theorem c5_counterexample :
    cleanHeaders ["V".data, "V".data, "V 2".data] = ["V".data, "V 2".data, "V 2".data]
    ∧ ¬ List.Nodup (cleanHeaders ["V".data, "V".data, "V 2".data]) := by
  constructor
  · decide
  · decide

/-- C6, counterexample: in a compound file whose first comma-cell itself
contains semicolons, the date guard is bypassed: on `"A;B\n1-2;3"` the
first sub-value `"1-2"` of the first column contains `-` yet is
numeric-coerced to `1` (the `parseFloat` prefix), not kept as the string
`"1-2"` as the claim states for the very first column. -/
theorem c6_counterexample :
    parseCSV ("A;B\n1-2;3".data) =
      .ok { headers := ["A".data, "B".data],
            data := [[("A".data, Value.num 1), ("B".data, Value.num 3)]],
            isMultiMetric := true,
            originalFormat := .compound }
    ∧ Value.num 1 ≠ Value.str ("1-2".data) := by
  constructor
  · decide
  · decide

/-- C9, counterexample: header cleaning only strips the literal tag
`IOITSecure` followed by digits; the generic device tag `"Device123 > "`
is not stripped, so `"Device123 > Voltage"` normalizes to itself, not to
`"Voltage"`. -/
theorem c9_counterexample :
    cleanHeaders ["Device123 > Voltage".data] = ["Device123 > Voltage".data]
    ∧ "Device123 > Voltage".data ≠ "Voltage".data := by
  constructor
  · decide
  · decide

/-- C10, counterexample: the tokenizer removes *every* double-quote
character (each one toggles the in-quotes state and is dropped), so the
cell text `a"b"c` comes back as `abc`; the claim's description — the
cell's text with a single pair of enclosing quotes stripped and trimmed,
which here is `a"b"c` unchanged — does not match. -/
theorem c10_counterexample :
    parseCSVLine ("a\"b\"c".data) = ["abc".data]
    ∧ jsTrim (stripOuterQuotes ("a\"b\"c".data)) = "a\"b\"c".data
    ∧ "abc".data ≠ "a\"b\"c".data := by
  refine ⟨by decide, by decide, by decide⟩

/-- C8, counterexample: with `method = "count"`, a bucket outputs `0` —
not the bucket's row count — for a selected column that collected no
numeric observation.  One row with a valid time value and a non-numeric
`"V"` cell produces a bucket with `count = 1` but output value `0` for
`"V"`, so the output does depend on the column's values, contrary to the
claim. -/
theorem c8_counterexample :
    aggregate (D := Unit) (fun _ => some ()) (fun _ => "k".data) (fun _ => "L".data)
        (fun _ _ => false) ("T".data) (["V".data]) .count
        [[("T".data, Value.str "t".data), ("V".data, Value.str "s".data)]] =
      [[("T".data, Value.str "L".data),
        (originalKeyField, Value.str "k".data),
        ("V".data, Value.num 0)]]
    ∧ Value.num 0 ≠ Value.num 1 := by
  constructor
  · decide
  · decide


/-! ## Row-object lemmas -/

theorem objGet_objSet (r : Row) (k k' : List Char) (v : Value) :
    objGet (objSet r k v) k' = if k = k' then some v else objGet r k' := by
  induction r with
  | nil => simp [objSet, objGet]
  | cons p r ih =>
    by_cases hp : p.1 = k
    · simp only [objSet, if_pos hp, objGet]
      by_cases hk : k = k'
      · simp [hk]
      · have hq : ¬ p.1 = k' := fun hc => hk (hp.symm.trans hc)
        simp [hk, hq]
    · simp only [objSet, if_neg hp, objGet, ih]
      by_cases hq : p.1 = k'
      · have hk : ¬ k = k' := fun hc => hp (hq.trans hc.symm)
        simp [hq, hk]
      · by_cases hk : k = k' <;> simp [hq, hk]

theorem objGet_buildRowAux_of_forall (ps : List (List Char × Value)) (r : Row)
    (k : List Char) (h : ∀ p ∈ ps, p.1 ≠ k) :
    objGet (ps.foldl (fun r p => objSet r p.1 p.2) r) k = objGet r k := by
  induction ps generalizing r with
  | nil => rfl
  | cons p ps ih =>
    simp only [List.foldl_cons]
    rw [ih (objSet r p.1 p.2) (fun q hq => h q (List.mem_cons_of_mem _ hq))]
    rw [objGet_objSet, if_neg (h p (List.mem_cons_self _ _))]

/-- Under duplicate-free keys, writing a pair list into a fresh row object
gives plain first-match association lookup. -/
theorem objGet_buildRow_nodup (ps : List (List Char × Value)) (r : Row)
    (k : List Char) (hnd : (ps.map Prod.fst).Nodup) :
    objGet (ps.foldl (fun r p => objSet r p.1 p.2) r) k =
      match objGet ps k with
      | some v => some v
      | none => objGet r k := by
  induction ps generalizing r with
  | nil => rfl
  | cons p ps ih =>
    simp only [List.map_cons, List.nodup_cons] at hnd
    by_cases hp : p.1 = k
    · have hnot : ∀ q ∈ ps, q.1 ≠ k := by
        intro q hq hc
        exact hnd.1 (by
          rw [hp, ← hc]
          exact List.mem_map_of_mem Prod.fst hq)
      simp only [List.foldl_cons]
      rw [objGet_buildRowAux_of_forall ps _ k hnot]
      rw [objGet_objSet, if_pos hp]
      simp [objGet, hp]
    · simp only [List.foldl_cons]
      rw [ih _ hnd.2]
      rw [objGet_objSet, if_neg hp]
      simp [objGet, hp]

/-! ## Refinement of the standard row builder -/

theorem drop_eq_cons_of_get? {α : Type} (values : List α) (k : Nat) (v : α)
    (h : values.get? k = some v) : values.drop k = v :: values.drop (k + 1) := by
  induction values generalizing k with
  | nil => simp at h
  | cons x tl ih =>
    cases k with
    | zero =>
      simp only [List.get?] at h
      cases h
      rfl
    | succ k =>
      simp only [List.get?] at h
      simpa using ih k h

theorem drop_eq_nil_of_get? {α : Type} (values : List α) (k : Nat)
    (h : values.get? k = none) : values.drop k = [] := by
  induction values generalizing k with
  | nil => simp
  | cons x tl ih =>
    cases k with
    | zero => simp at h
    | succ k =>
      simp only [List.get?] at h
      simpa using ih k h

theorem standardRow_fold_eq (headers values : List (List Char)) (k : Nat) (r : Row) :
    (headers.enumFrom k).foldl
        (fun row p =>
          match values.get? p.1 with
          | some v => objSet row p.2 (coerceValue v)
          | none => row) r
      = ((headers.zip (values.drop k)).map (fun p => (p.1, coerceValue p.2))).foldl
          (fun r p => objSet r p.1 p.2) r := by
  induction headers generalizing k r with
  | nil => rfl
  | cons h hs ih =>
    cases hv : values.get? k with
    | some v =>
      rw [drop_eq_cons_of_get? values k v hv]
      simp only [List.enumFrom, List.zip_cons_cons, List.map_cons, List.foldl_cons, hv]
      exact ih (k + 1) (objSet r h (coerceValue v))
    | none =>
      rw [drop_eq_nil_of_get? values k hv]
      simp only [List.enumFrom, List.zip_nil_right, List.map_nil, List.foldl_cons,
        List.foldl_nil, hv]
      have := ih (k + 1) r
      rw [drop_eq_nil_of_get? values (k + 1) (by
        cases values with
        | nil => rfl
        | cons x tl =>
          cases k with
          | zero => simp at hv
          | succ k =>
            simp only [List.get?] at hv ⊢
            exact (List.get?_eq_none).mpr (by
              have := (List.get?_eq_none).mp hv
              omega))] at this
      simpa using this

theorem rowOfStandardLine_eq_buildRow (headers : List (List Char)) (line : List Char) :
    rowOfStandardLine headers line =
      buildRow ((headers.zip (parseCSVLine line)).map (fun p => (p.1, coerceValue p.2))) := by
  unfold rowOfStandardLine buildRow
  have h := standardRow_fold_eq headers (parseCSVLine line) 0 []
  simpa [List.enum] using h

theorem objGet_zip_coerce (headers values : List (List Char))
    (hnd : headers.Nodup) (i : Nat) (hi : i < headers.length) :
    objGet ((headers.zip values).map (fun p => (p.1, coerceValue p.2)))
        (headers.get ⟨i, hi⟩) =
      if h : i < values.length
      then some (coerceValue (values.get ⟨i, h⟩))
      else none := by
  induction headers generalizing values i with
  | nil => simp at hi
  | cons h hs ih =>
    simp only [List.nodup_cons] at hnd
    cases values with
    | nil =>
      simp [objGet]
    | cons v vs =>
      cases i with
      | zero =>
        simp [objGet]
      | succ i =>
        have hkey : (hs.get ⟨i, by simpa using hi⟩) ∈ hs := List.get_mem hs i _
        have hne : ¬ h = hs.get ⟨i, by simpa using hi⟩ := by
          intro hc
          exact hnd.1 (hc ▸ hkey)
        simp only [List.zip_cons_cons, List.map_cons, objGet, List.get]
        rw [if_neg hne]
        simpa using ih vs hnd.2 i (by simpa using hi)

theorem map_fst_zip_eq_take {a b : Type} (l1 : List a) (l2 : List b) :
    (l1.zip l2).map Prod.fst = l1.take l2.length := by
  induction l1 generalizing l2 with
  | nil => simp
  | cons x xs ih =>
    cases l2 with
    | nil => simp
    | cons y ys => simp [ih]

/-- C2 (amended): for every standard-format data line, header `i` of the
row is bound to the coerced cell `i` when the line tokenizes to at least
`i + 1` cells, and is *omitted* from the row (the key is absent, rather
than mapped to the empty string) when the line has fewer cells. -/
theorem c2_standard_row_missing_trailing_headers_omitted
    (headers : List (List Char)) (line : List Char) (hnd : headers.Nodup)
    (i : Nat) (hi : i < headers.length) :
    objGet (rowOfStandardLine headers line) (headers.get ⟨i, hi⟩) =
      if h : i < (parseCSVLine line).length
      then some (coerceValue ((parseCSVLine line).get ⟨i, h⟩))
      else none := by
  rw [rowOfStandardLine_eq_buildRow]
  unfold buildRow
  rw [objGet_buildRow_nodup _ _ _ (by
    have hmap : (((headers.zip (parseCSVLine line)).map
        (fun p => (p.1, coerceValue p.2))).map Prod.fst)
        = (headers.zip (parseCSVLine line)).map Prod.fst := by
      rw [List.map_map]
      rfl
    rw [hmap]
    rw [map_fst_zip_eq_take]
    exact hnd.sublist (List.take_sublist _ _))]
  rw [objGet_zip_coerce headers (parseCSVLine line) hnd i hi]
  by_cases h : i < (parseCSVLine line).length
  · simp [h]
  · simp [h, objGet]

/-- C2, witness: at headers `["A","B"]` and the single-cell line `"x"`,
the amended theorem yields that the row has no binding for `"B"`. -/
theorem c2_witness :
    objGet (rowOfStandardLine ["A".data, "B".data] ("x".data))
        ((["A".data, "B".data]).get ⟨1, by decide⟩) = none := by
  have h := c2_standard_row_missing_trailing_headers_omitted
    ["A".data, "B".data] ("x".data) (by decide) 1 (by decide)
  exact h.trans (by decide)

/-! ## Refinement of the compound row builder -/

theorem getD_eq_get_of_lt (headers : List (List Char)) (hi : Nat)
    (h : hi < headers.length) :
    headers.getD hi [] = headers.get ⟨hi, h⟩ := by
  induction headers generalizing hi with
  | nil => simp at h
  | cons x xs ih =>
    cases hi with
    | zero => rfl
    | succ n => exact ih n (by simpa using h)

theorem drop_cons_of_lt (headers : List (List Char)) (hi : Nat)
    (h : hi < headers.length) :
    headers.drop hi = headers.get ⟨hi, h⟩ :: headers.drop (hi + 1) := by
  induction headers generalizing hi with
  | nil => simp at h
  | cons x xs ih =>
    cases hi with
    | zero => rfl
    | succ n => exact ih n (by simpa using h)

theorem zip_append_foldl (headers : List (List Char)) (A B : List Value)
    (hi : Nat) (r : Row) :
    ((headers.drop hi).zip (A ++ B)).foldl (fun r p => objSet r p.1 p.2) r
      = ((headers.drop (hi + min A.length (headers.length - hi))).zip B).foldl
          (fun r p => objSet r p.1 p.2)
          (((headers.drop hi).zip A).foldl (fun r p => objSet r p.1 p.2) r) := by
  induction A generalizing hi r with
  | nil => simp
  | cons a A ih =>
    by_cases h : hi < headers.length
    · rw [drop_cons_of_lt headers hi h]
      simp only [List.cons_append, List.zip_cons_cons, List.foldl_cons]
      rw [ih (hi + 1) (objSet r (headers.get ⟨hi, h⟩) a)]
      have harith : hi + min (a :: A).length (headers.length - hi)
          = (hi + 1) + min A.length (headers.length - (hi + 1)) := by
        simp only [List.length_cons]
        omega
      rw [harith]
    · have hd : headers.drop hi = [] := List.drop_eq_nil_of_le (by omega)
      have hd2 : headers.drop (hi + min (a :: A).length (headers.length - hi)) = [] :=
        List.drop_eq_nil_of_le (by omega)
      rw [hd, hd2]
      simp

theorem consumeValues_eq (headers : List (List Char)) (vals : List (List Char))
    (r : Row) (hi : Nat) :
    consumeValues headers vals (r, hi)
      = (((headers.drop hi).zip (vals.map coerceValue)).foldl
           (fun r p => objSet r p.1 p.2) r,
         hi + min vals.length (headers.length - hi)) := by
  induction vals generalizing r hi with
  | nil => simp [consumeValues]
  | cons v vs ih =>
    by_cases h : hi < headers.length
    · have step : consumeValues headers (v :: vs) (r, hi)
          = consumeValues headers vs
              (objSet r (headers.get ⟨hi, h⟩) (coerceValue v), hi + 1) := by
        simp [consumeValues, h, getD_eq_get_of_lt headers hi h]
      rw [step, ih]
      rw [drop_cons_of_lt headers hi h]
      simp only [List.map_cons, List.zip_cons_cons, List.foldl_cons, List.length_cons]
      have harith : hi + min (vs.length + 1) (headers.length - hi)
          = (hi + 1) + min vs.length (headers.length - (hi + 1)) := by omega
      rw [harith]
    · have step : consumeValues headers (v :: vs) (r, hi)
          = consumeValues headers vs (r, hi) := by
        simp [consumeValues, h]
      rw [step, ih]
      have hd : headers.drop hi = [] := List.drop_eq_nil_of_le (by omega)
      rw [hd]
      simp only [List.zip_nil_left, List.foldl_nil]
      have : min vs.length (headers.length - hi) = 0 := by omega
      have h2 : min (v :: vs).length (headers.length - hi) = 0 := by
        simp only [List.length_cons]
        omega
      rw [this, h2]

theorem slotsOfE_cons (p : Nat × List Char) (ecells : List (Nat × List Char)) :
    slotsOfE (p :: ecells)
      = (if p.2.contains ';' then
          ((splitOnChar ';' p.2).map jsTrim).map (fun v => (false, v))
        else
          [(p.1 == 0, jsTrim p.2)]) ++ slotsOfE ecells := rfl

theorem slotValue_false (v : List Char) : slotValue (false, v) = coerceValue v := by
  simp [slotValue]

theorem compound_cells_fold_eq (headers : List (List Char))
    (ecells : List (Nat × List Char)) (r : Row) (hi : Nat) :
    ecells.foldl (compoundStep headers) (r, hi)
      = (((headers.drop hi).zip ((slotsOfE ecells).map slotValue)).foldl
           (fun r p => objSet r p.1 p.2) r,
         hi + min (slotsOfE ecells).length (headers.length - hi)) := by
  induction ecells generalizing r hi with
  | nil => simp [slotsOfE]
  | cons p ecells ih =>
    rw [List.foldl_cons]
    by_cases hsemi : p.2.contains ';'
    · have hstep : compoundStep headers (r, hi) p
          = consumeValues headers ((splitOnChar ';' p.2).map jsTrim) (r, hi) := by
        unfold compoundStep
        rw [if_pos hsemi]
      rw [hstep, consumeValues_eq, ih]
      rw [slotsOfE_cons, if_pos hsemi, List.map_append]
      rw [zip_append_foldl]
      simp only [List.map_map, List.length_map, List.length_append, Function.comp,
        slotValue_false, Prod.mk.injEq]
      exact ⟨rfl, by omega⟩
    · by_cases h : hi < headers.length
      · have hstep : compoundStep headers (r, hi) p
            = (objSet r (headers.get ⟨hi, h⟩) (slotValue ((p.1 == 0), jsTrim p.2)), hi + 1) := by
          unfold compoundStep
          rw [if_neg hsemi, if_pos h, getD_eq_get_of_lt headers hi h]
          simp only [slotValue]
          split_ifs <;> rfl
        rw [hstep, ih, slotsOfE_cons, if_neg hsemi]
        simp only [List.singleton_append, List.map_cons, List.length_cons]
        rw [drop_cons_of_lt headers hi h]
        simp only [List.zip_cons_cons, List.foldl_cons, Prod.mk.injEq]
        exact ⟨trivial, by omega⟩
      · have hstep : compoundStep headers (r, hi) p = (r, hi) := by
          unfold compoundStep
          rw [if_neg hsemi, if_neg h]
        rw [hstep, ih, slotsOfE_cons, if_neg hsemi]
        have hd : headers.drop hi = [] := List.drop_eq_nil_of_le (by omega)
        rw [hd]
        simp only [List.zip_nil_left, List.foldl_nil, List.singleton_append,
          List.map_cons, List.length_cons, Prod.mk.injEq]
        exact ⟨trivial, by omega⟩

theorem rowOfCompoundCells_eq_buildRow (headers cells : List (List Char)) :
    rowOfCompoundCells headers cells
      = buildRow (headers.zip ((compoundSlots cells).map slotValue)) := by
  unfold rowOfCompoundCells buildRow
  rw [compound_cells_fold_eq headers cells.enum [] 0]
  have hc : compoundSlots cells = slotsOfE cells.enum := rfl
  simp [hc]

/-- C6 (amended): the typed value of every consumed cell, in both row
parsers, follows the shared coercion rule — the parsed number when the
trimmed text parses as a (finite) number, the original trimmed string
otherwise — except that in a compound row a *semicolon-free* cell in the
first comma position (and only such a cell: sub-values of a
semicolon-joined first cell are always coerced) is kept as a string when
its text contains `/`, `:` or `-`.  Stated as: each parser's row equals
the row built by pairing the headers, in order, with the declaratively
computed slot values. -/
theorem c6_typed_value_coercion_rule :
    (∀ (headers : List (List Char)) (line : List Char),
        rowOfStandardLine headers line
          = buildRow ((headers.zip (parseCSVLine line)).map
              (fun p => (p.1, coerceValue p.2))))
    ∧ (∀ (headers cells : List (List Char)),
        rowOfCompoundCells headers cells
          = buildRow (headers.zip ((compoundSlots cells).map slotValue))) :=
  ⟨rowOfStandardLine_eq_buildRow, rowOfCompoundCells_eq_buildRow⟩

/-! ## Refinement of the line tokenizer -/

theorem splitTopLevel_ne_nil (q : Bool) (l : List Char) : splitTopLevel q l ≠ [] := by
  induction l generalizing q with
  | nil => simp [splitTopLevel]
  | cons c cs ih =>
    simp only [splitTopLevel]
    by_cases hq : c = '"'
    · rw [if_pos hq]
      cases hsp : splitTopLevel (!q) cs with
      | nil => simp
      | cons piece rest => simp
    · rw [if_neg hq]
      by_cases hc : c = ',' ∧ q = false
      · rw [if_pos hc]
        simp
      · rw [if_neg hc]
        cases hsp : splitTopLevel q cs with
        | nil => simp
        | cons piece rest => simp

theorem mapHead_nil_append (l : List (List Char)) :
    mapHead (fun x => [] ++ x) l = l := by
  cases l <;> simp [mapHead]

theorem parseCSVLineRaw_eq_splitTopLevel (l cur : List Char) (q : Bool) :
    parseCSVLineRaw l cur q
      = mapHead (fun x => cur ++ x)
          ((splitTopLevel q l).map (fun s => s.filter (fun c => c != '"'))) := by
  induction l generalizing cur q with
  | nil => simp [parseCSVLineRaw, splitTopLevel, mapHead]
  | cons c cs ih =>
    by_cases hq : c = '"'
    · obtain ⟨piece, rest, hsp⟩ : ∃ piece rest, splitTopLevel (!q) cs = piece :: rest := by
        cases hh : splitTopLevel (!q) cs with
        | nil => exact absurd hh (splitTopLevel_ne_nil _ _)
        | cons piece rest => exact ⟨piece, rest, rfl⟩
      have hraw : parseCSVLineRaw (c :: cs) cur q = parseCSVLineRaw cs cur (!q) := by
        simp [parseCSVLineRaw, hq]
      have hsplit : splitTopLevel q (c :: cs) = (c :: piece) :: rest := by
        simp [splitTopLevel, hq, hsp]
      rw [hraw, hsplit, ih]
      subst hq
      simp only [List.map_cons, List.filter_cons, bne_self_eq_false, if_false,
        Bool.false_eq_true, hsp, List.map_map, mapHead]
    · by_cases hc : c = ',' ∧ q = false
      · have hraw : parseCSVLineRaw (c :: cs) cur q = cur :: parseCSVLineRaw cs [] false := by
          simp only [parseCSVLineRaw, if_neg hq]
          rw [if_pos hc]
        have hsplit : splitTopLevel q (c :: cs) = [] :: splitTopLevel false cs := by
          simp only [splitTopLevel, if_neg hq]
          rw [if_pos hc]
        rw [hraw, hsplit, ih, mapHead_nil_append]
        simp only [List.map_cons, List.filter_nil, mapHead, List.append_nil]
      · obtain ⟨piece, rest, hsp⟩ : ∃ piece rest, splitTopLevel q cs = piece :: rest := by
          cases hh : splitTopLevel q cs with
          | nil => exact absurd hh (splitTopLevel_ne_nil _ _)
          | cons piece rest => exact ⟨piece, rest, rfl⟩
        have hraw : parseCSVLineRaw (c :: cs) cur q = parseCSVLineRaw cs (cur ++ [c]) q := by
          simp only [parseCSVLineRaw, if_neg hq]
          rw [if_neg hc]
        have hsplit : splitTopLevel q (c :: cs) = (c :: piece) :: rest := by
          simp only [splitTopLevel, if_neg hq]
          rw [if_neg hc, hsp]
        rw [hraw, hsplit, ih]
        have hcb : (c != '"') = true := by simp [hq]
        simp only [List.map_cons, List.filter_cons, hcb, if_true, mapHead, List.map_map]
        simp [hsp, mapHead, List.append_assoc]

theorem stripOuterQuotes_of_no_quote (s : List Char) (h : '"' ∉ s) :
    stripOuterQuotes s = s := by
  cases s with
  | nil => rfl
  | cons c r =>
    have hc : c ≠ '"' := fun hcc => h (hcc ▸ List.mem_cons_self c r)
    simp only [stripOuterQuotes, if_neg hc]
    cases hrev : (c :: r).reverse with
    | nil => simp at hrev
    | cons d rr =>
      have hd : d ∈ c :: r := by
        rw [← List.mem_reverse, hrev]
        exact List.mem_cons_self _ _
      have hdq : d ≠ '"' := fun hcc => h (hcc ▸ hd)
      simp [hrev, if_neg hdq]

/-- C10 (amended): the tokenizer splits the line at commas that lie
outside the quote-toggled state (a double quote toggles the state, a
comma inside quotes is literal content, and no input fails); each
returned cell is the raw span's text with *every* double-quote character
removed (the single-enclosing-pair strip of the post-processing step has
nothing left to remove), trimmed of surrounding whitespace. -/
theorem c10_tokenizer_quote_toggle_best_effort (line : List Char) :
    parseCSVLine line
      = (splitTopLevel false line).map
          (fun s => jsTrim (s.filter (fun c => c != '"'))) := by
  unfold parseCSVLine
  rw [parseCSVLineRaw_eq_splitTopLevel line [] false, mapHead_nil_append, List.map_map]
  apply List.map_congr_left
  intro s _
  simp only [Function.comp]
  rw [stripOuterQuotes_of_no_quote]
  intro hmem
  have hp := List.of_mem_filter hmem
  simp at hp

/-! ## Header normalization: deduplication formula -/

theorem seenGet_seenSet (m : SeenMap) (k k' : List Char) (v : Nat) :
    seenGet (seenSet m k v) k' = if k = k' then some v else seenGet m k' := by
  induction m with
  | nil => simp [seenSet, seenGet]
  | cons p m ih =>
    by_cases hp : p.1 = k
    · simp only [seenSet, if_pos hp, seenGet]
      by_cases hk : k = k'
      · simp [hk]
      · have hq : ¬ p.1 = k' := fun hc => hk (hp.symm.trans hc)
        simp [hk, hq]
    · simp only [seenSet, if_neg hp, seenGet, ih]
      by_cases hq : p.1 = k'
      · have hk : ¬ k = k' := fun hc => hp (hq.trans hc.symm)
        simp [hq, hk]
      · by_cases hk : k = k' <;> simp [hq, hk]

theorem cleanHeadersAux_eq_specCleanFrom (rest pre : List (List Char)) (seen : SeenMap)
    (hinv : ∀ name, seenGet seen name
      = if ((pre.map cleanedName).count name) = 0 then none
        else some ((pre.map cleanedName).count name)) :
    cleanHeadersAux rest seen = specCleanFrom pre rest := by
  induction rest generalizing pre seen with
  | nil => rfl
  | cons h t ih =>
    have hc := hinv (cleanedName h)
    by_cases hz : ((pre.map cleanedName).count (cleanedName h)) = 0
    · rw [if_pos hz] at hc
      simp only [cleanHeadersAux, hc, specCleanFrom, hz, if_pos rfl]
      congr 1
      apply ih
      intro name
      rw [seenGet_seenSet]
      by_cases hn : cleanedName h = name
      · subst hn
        rw [if_pos rfl, List.map_append, List.count_append, hz]
        simp [List.count_cons]
      · rw [if_neg hn, hinv name, List.map_append, List.count_append]
        have h0 : ([h].map cleanedName).count name = 0 := by
          simp [List.count_cons, hn]
        rw [h0]
        simp
    · rw [if_neg hz] at hc
      simp only [cleanHeadersAux, hc, specCleanFrom, if_neg hz]
      congr 1
      apply ih
      intro name
      rw [seenGet_seenSet]
      by_cases hn : cleanedName h = name
      · subst hn
        rw [if_pos rfl, List.map_append, List.count_append]
        have h1 : ([h].map cleanedName).count (cleanedName h) = 1 := by
          simp [List.count_cons]
        rw [h1]
        simp
      · rw [if_neg hn, hinv name, List.map_append, List.count_append]
        have h0 : ([h].map cleanedName).count name = 0 := by
          simp [List.count_cons, hn]
        rw [h0]
        simp

theorem specCleanFrom_length (pre rest : List (List Char)) :
    (specCleanFrom pre rest).length = rest.length := by
  induction rest generalizing pre with
  | nil => rfl
  | cons h t ih => simp [specCleanFrom, ih]

/-- C5 (amended): normalization preserves length and order, leaves the
first occurrence of each cleaned name unchanged and suffixes the k-th
occurrence (k ≥ 2) of the same cleaned name with a space and k — but
this renaming does *not* guarantee global uniqueness: a distinct raw
header that already carries the suffixed form collides with a generated
name (see the counterexample `["V","V","V 2"]`). -/
theorem c5_cleanHeaders_occurrence_numbering (hs : List (List Char)) :
    cleanHeaders hs = specCleanedList hs
    ∧ (cleanHeaders hs).length = hs.length := by
  have h := cleanHeadersAux_eq_specCleanFrom hs [] []
    (fun name => by simp [seenGet])
  refine ⟨h, ?_⟩
  show (cleanHeadersAux hs []).length = hs.length
  rw [h]
  exact specCleanFrom_length [] hs

/-! ## Header cleaning: the device-prefix strip -/

theorem takeWhile_append_of_all {A : Type} (p : A → Bool) (l r : List A)
    (h : l.all p) : (l ++ r).takeWhile p = l ++ r.takeWhile p := by
  induction l with
  | nil => simp
  | cons x xs ih =>
    simp only [List.all_cons, Bool.and_eq_true] at h
    simp [List.takeWhile, h.1, ih h.2]

theorem dropWhile_append_of_all {A : Type} (p : A → Bool) (l r : List A)
    (h : l.all p) : (l ++ r).dropWhile p = r.dropWhile p := by
  induction l with
  | nil => simp
  | cons x xs ih =>
    simp only [List.all_cons, Bool.and_eq_true] at h
    simp [List.dropWhile, h.1, ih h.2]

theorem isPrefixOf_append_self {A : Type} [BEq A] [LawfulBEq A] (l r : List A) :
    l.isPrefixOf (l ++ r) = true := by
  induction l with
  | nil => simp [List.isPrefixOf]
  | cons a as ih => simp [List.isPrefixOf, ih]

theorem stripDeviceTag_strips (ds name : List Char)
    (h1 : ds ≠ []) (h2 : ds.all Char.isDigit) :
    stripDeviceTag (deviceTag ++ ds ++ '>' :: name) = name.dropWhile ws := by
  have hpre : deviceTag.isPrefixOf (deviceTag ++ ds ++ '>' :: name) = true :=
    isPrefixOf_append_self deviceTag _
  unfold stripDeviceTag
  rw [hpre]
  simp only [if_true]
  have hdrop : (deviceTag ++ ds ++ '>' :: name).drop deviceTag.length
      = ds ++ '>' :: name := List.drop_left _ _
  rw [hdrop]
  have htake : (ds ++ '>' :: name).takeWhile Char.isDigit = ds := by
    rw [takeWhile_append_of_all Char.isDigit ds _ h2]
    simp [List.takeWhile]
  rw [htake]
  have hne : ds.isEmpty = false := by
    cases ds with
    | nil => exact absurd rfl h1
    | cons d dt => rfl
  rw [hne]
  simp only [Bool.false_eq_true, if_false]
  have hdrop2 : (ds ++ '>' :: name).drop ds.length = '>' :: name := List.drop_left _ _
  rw [hdrop2]
  have hgt : ('>' :: name).dropWhile ws = '>' :: name := by
    simp [List.dropWhile, ws]
  rw [hgt]
  rfl

/-- C9 (corrected form): header cleaning strips only the *literal* device
tag `IOITSecure` followed by one or more digits and a `>` separator
(with surrounding whitespace), not an arbitrary alphanumeric device tag:
`"IOITSecure123 > Voltage"` normalizes to `"Voltage"` while
`"Device123 > Voltage"` is left unchanged. -/
theorem c9_device_tag_strip (ds name : List Char)
    (h1 : ds ≠ []) (h2 : ds.all Char.isDigit) :
    stripDeviceTag (deviceTag ++ ds ++ '>' :: name) = name.dropWhile ws
    ∧ cleanHeaders ["IOITSecure123 > Voltage".data] = ["Voltage".data]
    ∧ cleanHeaders ["Device123 > Voltage".data] = ["Device123 > Voltage".data] :=
  ⟨stripDeviceTag_strips ds name h1 h2, by decide, by decide⟩

/-- C9, witness: the general strip at tag digits `"123"` and remainder
`" Voltage"`. -/
theorem c9_witness :
    stripDeviceTag (deviceTag ++ "123".data ++ '>' :: " Voltage".data)
        = (" Voltage".data).dropWhile ws
    ∧ cleanHeaders ["IOITSecure123 > Voltage".data] = ["Voltage".data]
    ∧ cleanHeaders ["Device123 > Voltage".data] = ["Device123 > Voltage".data] :=
  c9_device_tag_strip ("123".data) (" Voltage".data) (by decide) (by decide)

/-! ## Format detection through `parseCSV` -/

theorem hasSemiBeforeComma_iff (l : List Char) :
    hasSemiBeforeComma l = true ↔ ';' ∈ l.takeWhile (fun c => c != ',') := by
  induction l with
  | nil => simp [hasSemiBeforeComma]
  | cons c cs ih =>
    by_cases hs : c = ';'
    · subst hs
      simp [hasSemiBeforeComma, List.takeWhile]
    · by_cases hcomma : c = ','
      · subst hcomma
        simp [hasSemiBeforeComma, List.takeWhile]
      · have hb : (c != ',') = true := by simp [hcomma]
        simp only [hasSemiBeforeComma, if_neg hs, if_neg hcomma, List.takeWhile, hb]
        rw [ih]
        constructor
        · intro hm
          exact List.mem_cons_of_mem _ hm
        · intro hm
          rcases List.mem_cons.mp hm with he | hm
          · exact absurd he.symm hs
          · exact hm

/-- C4: for every input whose trimmed text has at least two lines, parsing
succeeds and chooses the compound parser exactly when the first
comma-delimited cell of the first line and the first comma-delimited cell
of the second line each contain a semicolon; otherwise the standard
parser runs. -/
theorem c4_detector_selects_compound_iff (t : List Char)
    (h : 2 ≤ (splitOnChar '\n' (jsTrim t)).length) :
    ∃ r, parseCSV t = .ok r ∧
      (r.originalFormat = .compound ↔
        (';' ∈ ((splitOnChar '\n' (jsTrim t)).headD []).takeWhile (fun c => c != ',')
          ∧ ';' ∈ ((splitOnChar '\n' (jsTrim t)).getD 1 []).takeWhile (fun c => c != ','))) := by
  have hemp : (jsTrim t).isEmpty = false := by
    cases hjt : jsTrim t with
    | nil => rw [hjt] at h; simp [splitOnChar] at h
    | cons c cs => rfl
  have hlen : ¬ (splitOnChar '\n' (jsTrim t)).length < 2 := by omega
  by_cases hd : detectCompoundFormat ((splitOnChar '\n' (jsTrim t)).headD [])
      ((splitOnChar '\n' (jsTrim t)).getD 1 []) = true
  · have hok : parseCSV t = parseCompoundCSV t := by
      simp only [parseCSV, hemp, Bool.false_eq_true, if_false]
      rw [if_neg hlen, if_pos hd]
    have hok2 : ∃ r, parseCompoundCSV t = .ok r ∧ r.originalFormat = .compound := by
      simp only [parseCompoundCSV]
      rw [if_neg hlen]
      exact ⟨_, rfl, rfl⟩
    obtain ⟨r, hr, hf⟩ := hok2
    refine ⟨r, hok.trans hr, ?_⟩
    constructor
    · intro _
      have hd2 := hd
      unfold detectCompoundFormat at hd2
      rw [Bool.and_eq_true] at hd2
      exact ⟨(hasSemiBeforeComma_iff _).mp hd2.1, (hasSemiBeforeComma_iff _).mp hd2.2⟩
    · intro _
      exact hf
  · have hok : parseCSV t = .ok (parseStandardCSV t) := by
      simp only [parseCSV, hemp, Bool.false_eq_true, if_false]
      rw [if_neg hlen, if_neg hd]
    refine ⟨parseStandardCSV t, hok, ?_⟩
    constructor
    · intro hf
      exact absurd hf (by simp [parseStandardCSV])
    · rintro ⟨ha, hb⟩
      exfalso
      apply hd
      unfold detectCompoundFormat
      rw [Bool.and_eq_true]
      exact ⟨(hasSemiBeforeComma_iff _).mpr ha, (hasSemiBeforeComma_iff _).mpr hb⟩

/-- C4, witness: at `"a;b\nc;d"` the theorem applies (two lines) and its
detection equivalence is inhabited. -/
theorem c4_witness :
    ∃ r, parseCSV ("a;b\nc;d".data) = .ok r ∧
      (r.originalFormat = .compound ↔
        (';' ∈ ((splitOnChar '\n' (jsTrim ("a;b\nc;d".data))).headD []).takeWhile
            (fun c => c != ',')
          ∧ ';' ∈ ((splitOnChar '\n' (jsTrim ("a;b\nc;d".data))).getD 1 []).takeWhile
            (fun c => c != ','))) :=
  c4_detector_selects_compound_iff ("a;b\nc;d".data) (by decide)

/-! ## Blank-line structure of the input text (for the error taxonomy) -/

theorem splitOnChar_ne_nil (sep : Char) (l : List Char) : splitOnChar sep l ≠ [] := by
  induction l with
  | nil => simp [splitOnChar]
  | cons c cs ih =>
    simp only [splitOnChar]
    cases hsp : splitOnChar sep cs with
    | nil => exact absurd hsp ih
    | cons y ys =>
      by_cases hc : c = sep
      · simp [hc]
      · simp [hc]

theorem splitOnChar_cons_eq (sep c : Char) (cs y : List Char) (ys : List (List Char))
    (hsp : splitOnChar sep cs = y :: ys) :
    splitOnChar sep (c :: cs) = if c = sep then [] :: y :: ys else (c :: y) :: ys := by
  simp only [splitOnChar, hsp]

theorem splitOnChar_length (sep : Char) (l : List Char) :
    (splitOnChar sep l).length = l.count sep + 1 := by
  induction l with
  | nil => simp [splitOnChar]
  | cons c cs ih =>
    cases hsp : splitOnChar sep cs with
    | nil => exact absurd hsp (splitOnChar_ne_nil sep cs)
    | cons y ys =>
      rw [splitOnChar_cons_eq sep c cs y ys hsp]
      rw [hsp] at ih
      by_cases hc : c = sep
      · subst hc
        rw [if_pos rfl, List.count_cons_self]
        simp only [List.length_cons] at ih ⊢
        omega
      · rw [if_neg hc, List.count_cons_of_ne (fun h => hc h.symm)]
        simpa using ih

theorem nonBlank_false_iff (t : List Char) :
    nonBlank t = false ↔ ∀ c ∈ t, ws c = true := by
  simp [nonBlank]

theorem jsTrim_eq_nil_iff (t : List Char) :
    jsTrim t = [] ↔ nonBlank t = false := by
  unfold jsTrim
  rw [List.reverse_eq_nil_iff, List.dropWhile_eq_nil_iff, nonBlank_false_iff]
  constructor
  · intro h c hc
    rcases List.mem_append.mp ((List.takeWhile_append_dropWhile (p := ws) (l := t)) ▸ hc) with
      h1 | h2
    · exact List.mem_takeWhile_imp h1
    · exact h (c) (List.mem_reverse.mpr h2)
  · intro h c hc
    exact h c (List.dropWhile_sublist ws |>.mem (List.mem_reverse.mp hc))

theorem dropWhile_append_of_nonBlank (a x : List Char) (h : nonBlank a = true) :
    (a ++ x).dropWhile ws = a.dropWhile ws ++ x := by
  induction a with
  | nil => simp [nonBlank] at h
  | cons c cs ih =>
    by_cases hw : ws c
    · have hcs : nonBlank cs = true := by
        simp only [nonBlank, List.any_cons, hw] at h ⊢
        simpa using h
      simp [List.dropWhile, hw, ih hcs]
    · simp [List.dropWhile, hw]

theorem ws_head_dropWhile (t : List Char) (c : Char) (r : List Char)
    (h : t.dropWhile ws = c :: r) : ws c = false := by
  induction t with
  | nil => simp at h
  | cons d ds ih =>
    by_cases hw : ws d
    · rw [List.dropWhile_cons_of_pos hw] at h
      exact ih h
    · rw [List.dropWhile_cons_of_neg hw] at h
      cases h
      simpa using hw

theorem mem_nl_dropWhile_iff (t : List Char) :
    '\n' ∈ t.dropWhile ws ↔ ∃ a b, t = a ++ '\n' :: b ∧ nonBlank a = true := by
  constructor
  · intro hm
    induction t with
    | nil => simp at hm
    | cons c cs ih =>
      by_cases hw : ws c
      · rw [List.dropWhile_cons_of_pos hw] at hm
        obtain ⟨a, b, hab, hna⟩ := ih hm
        exact ⟨c :: a, b, by rw [hab]; rfl, by
          simp only [nonBlank, List.any_cons] at hna ⊢
          simp [hna]⟩
      · rw [List.dropWhile_cons_of_neg hw] at hm
        rcases List.mem_cons.mp hm with he | hm2
        · exact absurd (by rw [← he]; decide : ws c = true) (by simpa using hw)
        · obtain ⟨s, u, hsu⟩ := List.append_of_mem hm2
          exact ⟨c :: s, u, by rw [hsu]; rfl, by
            simp only [nonBlank, List.any_cons]
            simp [hw]⟩
  · rintro ⟨a, b, hab, hna⟩
    subst hab
    rw [dropWhile_append_of_nonBlank a ('\n' :: b) hna]
    exact List.mem_append_right _ (List.mem_cons_self _ _)

theorem nonBlank_reverse (l : List Char) : nonBlank l.reverse = nonBlank l := by
  simp [nonBlank]

theorem mem_nl_jsTrim_iff (t : List Char) :
    '\n' ∈ jsTrim t ↔ TwoNonBlankLines t := by
  unfold jsTrim
  rw [List.mem_reverse, mem_nl_dropWhile_iff]
  constructor
  · rintro ⟨a, b, hab, hna⟩
    have hu : t.dropWhile ws = b.reverse ++ '\n' :: a.reverse := by
      have h2 := congrArg List.reverse hab
      rw [List.reverse_reverse] at h2
      rw [h2, List.reverse_append]
      simp
    have hnb : nonBlank b.reverse = true := by
      cases hbr : b.reverse with
      | nil =>
        rw [hbr, List.nil_append] at hu
        have hws := ws_head_dropWhile t '\n' a.reverse hu
        simp [ws] at hws
      | cons d ds =>
        rw [hbr] at hu
        have hws := ws_head_dropWhile t d (ds ++ '\n' :: a.reverse) (by simpa using hu)
        simp [nonBlank, hws]
    refine ⟨t.takeWhile ws ++ b.reverse, a.reverse, ?_, ?_, ?_⟩
    · conv_lhs => rw [← List.takeWhile_append_dropWhile (p := ws) (l := t)]
      rw [hu, List.append_assoc]
    · simp only [nonBlank, List.any_append, Bool.or_eq_true]
      right
      simpa [nonBlank] using hnb
    · simpa [nonBlank_reverse] using hna
  · rintro ⟨A, B, hab, hnA, hnB⟩
    refine ⟨B.reverse, (A.dropWhile ws).reverse, ?_, ?_⟩
    · subst hab
      rw [dropWhile_append_of_nonBlank A ('\n' :: B) hnA]
      rw [List.reverse_append]
      simp
    · simpa [nonBlank_reverse] using hnB

theorem one_le_countP_split_iff (t : List Char) :
    1 ≤ (splitOnChar '\n' t).countP nonBlank ↔ nonBlank t = true := by
  induction t with
  | nil => simp [splitOnChar, nonBlank]
  | cons c cs ih =>
    cases hsp : splitOnChar '\n' cs with
    | nil => exact absurd hsp (splitOnChar_ne_nil _ _)
    | cons y ys =>
      rw [splitOnChar_cons_eq _ c cs y ys hsp]
      rw [hsp] at ih
      by_cases hc : c = '\n'
      · subst hc
        rw [if_pos rfl]
        have h1 : List.countP nonBlank ([] :: y :: ys) = List.countP nonBlank (y :: ys) := by
          rw [List.countP_cons]
          simp [nonBlank]
        have h2 : nonBlank ('\n' :: cs) = nonBlank cs := by
          simp [nonBlank, ws]
        rw [h1, h2]
        exact ih
      · rw [if_neg hc]
        by_cases hw : ws c
        · have h1 : List.countP nonBlank ((c :: y) :: ys) = List.countP nonBlank (y :: ys) := by
            rw [List.countP_cons, List.countP_cons]
            have hcy : nonBlank (c :: y) = nonBlank y := by simp [nonBlank, hw]
            rw [hcy]
          have h2 : nonBlank (c :: cs) = nonBlank cs := by simp [nonBlank, hw]
          rw [h1, h2]
          exact ih
        · have h1 : nonBlank (c :: y) = true := by simp [nonBlank, hw]
          have h2 : nonBlank (c :: cs) = true := by simp [nonBlank, hw]
          rw [h2]
          rw [List.countP_cons, h1]
          simp

theorem countP_tail_split_iff (t : List Char) (y : List Char) (ys : List (List Char))
    (hsp : splitOnChar '\n' t = y :: ys) :
    1 ≤ List.countP nonBlank ys
      ↔ ∃ a b, t = a ++ '\n' :: b ∧ nonBlank b = true := by
  induction t generalizing y ys with
  | nil =>
    simp only [splitOnChar] at hsp
    cases hsp
    constructor
    · intro h
      simp at h
    · rintro ⟨a, b, hab, -⟩
      exact absurd hab (by simp)
  | cons c cs ih =>
    cases hsp2 : splitOnChar '\n' cs with
    | nil => exact absurd hsp2 (splitOnChar_ne_nil _ _)
    | cons y' ys' =>
      rw [splitOnChar_cons_eq _ c cs y' ys' hsp2] at hsp
      by_cases hc : c = '\n'
      · subst hc
        rw [if_pos rfl] at hsp
        cases hsp
        -- ys = y' :: ys' = splitOnChar cs
        rw [← hsp2, one_le_countP_split_iff cs]
        constructor
        · intro hnb
          exact ⟨[], cs, rfl, hnb⟩
        · rintro ⟨a, b, hab, hnb⟩
          cases a with
          | nil =>
            cases hab
            exact hnb
          | cons c' a' =>
            have hcs : cs = a' ++ '\n' :: b := by
              have := List.cons.injEq '\n' cs c' (a' ++ '\n' :: b) ▸ hab
              exact (List.cons.inj hab).2
            subst hcs
            simp only [nonBlank, List.any_append, List.any_cons, Bool.or_eq_true] at hnb ⊢
            right
            right
            exact hnb
      · rw [if_neg hc] at hsp
        have hys : ys = ys' := ((List.cons.inj hsp).2).symm
        rw [hys, ih y' ys' hsp2]
        constructor
        · rintro ⟨a, b, hab, hnb⟩
          exact ⟨c :: a, b, by rw [hab]; rfl, hnb⟩
        · rintro ⟨a, b, hab, hnb⟩
          cases a with
          | nil =>
            cases hab
            exact absurd rfl hc
          | cons c' a' =>
            exact ⟨a', b, (List.cons.inj hab).2, hnb⟩

theorem two_le_countP_split_iff (t : List Char) :
    2 ≤ (splitOnChar '\n' t).countP nonBlank ↔ TwoNonBlankLines t := by
  induction t with
  | nil =>
    simp only [splitOnChar]
    constructor
    · intro h
      simp [nonBlank] at h
    · rintro ⟨a, b, hab, -, -⟩
      exact absurd hab (by simp)
  | cons c cs ih =>
    cases hsp : splitOnChar '\n' cs with
    | nil => exact absurd hsp (splitOnChar_ne_nil _ _)
    | cons y ys =>
      rw [splitOnChar_cons_eq _ c cs y ys hsp]
      rw [hsp] at ih
      by_cases hc : c = '\n'
      · subst hc
        rw [if_pos rfl]
        have h1 : List.countP nonBlank ([] :: y :: ys) = List.countP nonBlank (y :: ys) := by
          rw [List.countP_cons]
          simp [nonBlank]
        rw [h1, ih]
        constructor
        · rintro ⟨a, b, hab, hna, hnb⟩
          exact ⟨'\n' :: a, b, by rw [hab]; rfl, by simpa [nonBlank, ws] using hna, hnb⟩
        · rintro ⟨a, b, hab, hna, hnb⟩
          cases a with
          | nil =>
            cases hab
            simp [nonBlank] at hna
          | cons c' a' =>
            have hc' : c' = '\n' := (List.cons.inj hab).1.symm
            subst hc'
            exact ⟨a', b, (List.cons.inj hab).2, by simpa [nonBlank, ws] using hna, hnb⟩
      · rw [if_neg hc]
        by_cases hw : ws c
        · have h1 : List.countP nonBlank ((c :: y) :: ys) = List.countP nonBlank (y :: ys) := by
            rw [List.countP_cons, List.countP_cons]
            have hcy : nonBlank (c :: y) = nonBlank y := by simp [nonBlank, hw]
            rw [hcy]
          rw [h1, ih]
          constructor
          · rintro ⟨a, b, hab, hna, hnb⟩
            exact ⟨c :: a, b, by rw [hab]; rfl, by simpa [nonBlank, hw] using hna, hnb⟩
          · rintro ⟨a, b, hab, hna, hnb⟩
            cases a with
            | nil =>
              cases hab
              exact absurd rfl hc
            | cons c' a' =>
              exact ⟨a', b, (List.cons.inj hab).2, by
                have hc'' : c' = c := ((List.cons.inj hab).1).symm
                subst hc''
                simpa [nonBlank, hw] using hna, hnb⟩
        · have h1 : nonBlank (c :: y) = true := by simp [nonBlank, hw]
          have h3 : List.countP nonBlank ((c :: y) :: ys)
              = List.countP nonBlank ys + 1 := by
            rw [List.countP_cons, h1]
            simp
          have h2 : (2 ≤ List.countP nonBlank ys + 1) ↔ 1 ≤ List.countP nonBlank ys := by
            omega
          rw [h3, h2, countP_tail_split_iff cs y ys hsp]
          constructor
          · rintro ⟨a, b, hab, hnb⟩
            exact ⟨c :: a, b, by rw [hab]; rfl, by simp [nonBlank, hw], hnb⟩
          · rintro ⟨a, b, hab, -, hnb⟩
            cases a with
            | nil =>
              cases hab
              exact absurd rfl hc
            | cons c' a' =>
              exact ⟨a', b, (List.cons.inj hab).2, hnb⟩

/-- C3: `parseCSV` raises the empty-input error exactly on inputs with no
content (empty or whitespace-only), raises the insufficient-rows error
exactly on inputs with content but fewer than two non-blank lines, and
returns a `ParseResult` for every other input — no other failure exists. -/
theorem c3_error_taxonomy (t : List Char) :
    (parseCSV t = .error .emptyInput ↔ nonBlank t = false)
    ∧ (parseCSV t = .error .insufficientRows
        ↔ (nonBlank t = true ∧ (splitOnChar '\n' t).countP nonBlank < 2))
    ∧ ((nonBlank t = true ∧ 2 ≤ (splitOnChar '\n' t).countP nonBlank)
        → ∃ r, parseCSV t = .ok r) := by
  have hkey : (splitOnChar '\n' (jsTrim t)).length < 2
      ↔ (splitOnChar '\n' t).countP nonBlank < 2 := by
    rw [splitOnChar_length]
    constructor
    · intro h
      have hcount : (jsTrim t).count '\n' = 0 := by omega
      have hnotmem : '\n' ∉ jsTrim t := List.count_eq_zero.mp hcount
      have hnot2 : ¬ TwoNonBlankLines t := fun h2 =>
        hnotmem ((mem_nl_jsTrim_iff t).mpr h2)
      by_contra hc2
      push_neg at hc2
      exact hnot2 ((two_le_countP_split_iff t).mp hc2)
    · intro h
      have hnot2 : ¬ TwoNonBlankLines t := fun h2 => by
        have := (two_le_countP_split_iff t).mpr h2
        omega
      have hnotmem : '\n' ∉ jsTrim t := fun hm => hnot2 ((mem_nl_jsTrim_iff t).mp hm)
      have hcount : (jsTrim t).count '\n' = 0 := List.count_eq_zero.mpr hnotmem
      omega
  cases hb : nonBlank t with
  | false =>
    have hnil : jsTrim t = [] := (jsTrim_eq_nil_iff t).mpr hb
    have hrun : parseCSV t = .error .emptyInput := by
      simp [parseCSV, hnil]
    refine ⟨by simp [hrun], ?_, ?_⟩
    · rw [hrun]
      simp
    · rintro ⟨hc, -⟩
      simp at hc
  | true =>
    have hemp : (jsTrim t).isEmpty = false := by
      cases hjt : jsTrim t with
      | nil => exact absurd ((jsTrim_eq_nil_iff t).mp hjt) (by simp [hb])
      | cons c cs => rfl
    by_cases hlen : (splitOnChar '\n' (jsTrim t)).length < 2
    · have hrun : parseCSV t = .error .insufficientRows := by
        simp only [parseCSV, hemp, Bool.false_eq_true, if_false]
        rw [if_pos hlen]
      refine ⟨?_, ?_, ?_⟩
      · rw [hrun]
        simp
      · rw [hrun]
        constructor
        · intro _
          exact ⟨by simp, hkey.mp hlen⟩
        · intro _
          rfl
      · rintro ⟨-, hc2⟩
        exfalso
        have := hkey.mpr (by omega)
        omega
    · have hok : ∃ r, parseCSV t = .ok r := by
        by_cases hd : detectCompoundFormat ((splitOnChar '\n' (jsTrim t)).headD [])
            ((splitOnChar '\n' (jsTrim t)).getD 1 []) = true
        · have hrun : parseCSV t = parseCompoundCSV t := by
            simp only [parseCSV, hemp, Bool.false_eq_true, if_false]
            rw [if_neg hlen, if_pos hd]
          have hok2 : ∃ r, parseCompoundCSV t = .ok r := by
            simp only [parseCompoundCSV]
            rw [if_neg hlen]
            exact ⟨_, rfl⟩
          obtain ⟨r, hr⟩ := hok2
          exact ⟨r, hrun.trans hr⟩
        · refine ⟨parseStandardCSV t, ?_⟩
          simp only [parseCSV, hemp, Bool.false_eq_true, if_false]
          rw [if_neg hlen, if_neg hd]
      obtain ⟨r, hr⟩ := hok
      refine ⟨?_, ?_, fun _ => ⟨r, hr⟩⟩
      · rw [hr]
        simp
      · rw [hr]
        constructor
        · intro hc
          exact absurd hc (by simp)
        · rintro ⟨-, hc2⟩
          exfalso
          have := hkey.mpr hc2
          omega

/-- C3, witness: the taxonomy applied at an empty input, a one-non-blank-
line input, and a two-line input. -/
theorem c3_witness :
    parseCSV ("".data) = .error .emptyInput
    ∧ parseCSV ("a\n ".data) = .error .insufficientRows
    ∧ ∃ r, parseCSV ("a\nb".data) = .ok r := by
  refine ⟨?_, ?_, ?_⟩
  · exact (c3_error_taxonomy ("".data)).1.mpr (by decide)
  · exact (c3_error_taxonomy ("a\n ".data)).2.1.mpr (by decide)
  · exact (c3_error_taxonomy ("a\nb".data)).2.2 (by decide)

/-! ## Aggregation: sums and counts over buckets -/

theorem sumQ_foldl_shift (a : ℚ) (l : List ℚ) :
    l.foldl (· + ·) a = a + l.foldl (· + ·) 0 := by
  induction l generalizing a with
  | nil => simp
  | cons x xs ih =>
    simp only [List.foldl_cons]
    rw [ih (a + x), ih (0 + x)]
    ring

theorem sumQ_cons (x : ℚ) (l : List ℚ) : sumQ (x :: l) = x + sumQ l := by
  unfold sumQ
  simp only [List.foldl_cons]
  rw [sumQ_foldl_shift (0 + x) l]
  ring

theorem sumQ_append (l1 l2 : List ℚ) : sumQ (l1 ++ l2) = sumQ l1 + sumQ l2 := by
  induction l1 with
  | nil => simp [sumQ]
  | cons x xs ih =>
    simp only [List.cons_append]
    rw [sumQ_cons, sumQ_cons, ih]
    ring

theorem totalVals_cons (c : List Char) (b : Bucket) (gs : List Bucket) :
    totalVals c (b :: gs) = sumQ (bucketGet b.values c) + totalVals c gs := by
  unfold totalVals
  rw [List.map_cons, sumQ_cons]

theorem bucketGet_bucketPush (vs : List (List Char × List ℚ)) (k k' : List Char) (q : ℚ) :
    bucketGet (bucketPush vs k q) k'
      = if k = k' then bucketGet vs k' ++ [q] else bucketGet vs k' := by
  induction vs with
  | nil =>
    by_cases h : k = k' <;> simp [bucketPush, bucketGet, h]
  | cons p vs ih =>
    by_cases hp : p.1 = k
    · simp only [bucketPush, if_pos hp, bucketGet]
      by_cases hk : k = k'
      · rw [← hk, ← hp]
        simp [hp]
      · have hq : ¬ p.1 = k' := fun hc => hk (hp.symm.trans hc)
        simp [hk, hq]
    · simp only [bucketPush, if_neg hp, bucketGet, ih]
      by_cases hq : p.1 = k'
      · have hk : ¬ k = k' := fun hc => hp (hq.trans hc.symm)
        simp [hq, hk]
      · by_cases hk : k = k' <;> simp [hq, hk]

theorem pushRowValue_get (row : Row) (vs : List (List Char × List ℚ)) (y c : List Char) :
    bucketGet (pushRowValue row vs y) c
      = if y = c then bucketGet vs c ++ rowNum row c else bucketGet vs c := by
  by_cases h : y = c
  · subst h
    rw [if_pos rfl]
    unfold pushRowValue rowNum
    cases hv : objGet row y with
    | none => simp
    | some v =>
      cases v with
      | num q => rw [bucketGet_bucketPush, if_pos rfl]
      | str s => simp
  · rw [if_neg h]
    unfold pushRowValue
    cases hv : objGet row y with
    | none => rfl
    | some v =>
      cases v with
      | num q => rw [bucketGet_bucketPush, if_neg h]
      | str s => rfl

theorem bucketFold_get_zero (yAxes : List (List Char)) (row : Row)
    (vs : List (List Char × List ℚ)) (c : List Char) (hc : yAxes.count c = 0) :
    bucketGet (yAxes.foldl (pushRowValue row) vs) c = bucketGet vs c := by
  induction yAxes generalizing vs with
  | nil => rfl
  | cons y ys ih =>
    have hy : ¬ y = c := by
      intro hy
      subst hy
      simp [List.count_cons] at hc
    have hys : ys.count c = 0 := by
      rw [List.count_cons] at hc
      rw [beq_eq_false_iff_ne.mpr hy] at hc
      simpa using hc
    rw [List.foldl_cons, ih _ hys, pushRowValue_get, if_neg hy]

theorem bucketFold_get_one (yAxes : List (List Char)) (row : Row)
    (vs : List (List Char × List ℚ)) (c : List Char) (hc : yAxes.count c = 1) :
    bucketGet (yAxes.foldl (pushRowValue row) vs) c = bucketGet vs c ++ rowNum row c := by
  induction yAxes generalizing vs with
  | nil => simp [List.count_nil] at hc
  | cons y ys ih =>
    by_cases hy : y = c
    · subst hy
      have hys : ys.count y = 0 := by
        rw [List.count_cons] at hc
        rw [beq_self_eq_true] at hc
        simp only [if_true] at hc
        omega
      rw [List.foldl_cons, bucketFold_get_zero ys row _ y hys, pushRowValue_get, if_pos rfl]
    · have hys : ys.count c = 1 := by
        rw [List.count_cons] at hc
        rw [beq_eq_false_iff_ne.mpr hy] at hc
        simpa using hc
      rw [List.foldl_cons, ih _ hys, pushRowValue_get, if_neg hy]

theorem updateBucket_get (yAxes : List (List Char)) (row : Row) (b : Bucket)
    (c : List Char) (hc : yAxes.count c = 1) :
    bucketGet (updateBucket yAxes row b).values c
      = bucketGet b.values c ++ rowNum row c := by
  unfold updateBucket
  exact bucketFold_get_one yAxes row b.values c hc

theorem totalVals_updateGroups (c : List Char) (f : Bucket → Bucket) (k : List Char)
    (d : ℚ)
    (hf : ∀ b, sumQ (bucketGet (f b).values c) = sumQ (bucketGet b.values c) + d)
    (gs : List Bucket) :
    totalVals c (updateGroups f k gs)
      = totalVals c gs + (if gs.any (fun b => b.key = k) then d else 0) := by
  induction gs with
  | nil => simp [updateGroups, totalVals, sumQ]
  | cons b gs ih =>
    by_cases hb : b.key = k
    · simp only [updateGroups, if_pos hb]
      rw [totalVals_cons, totalVals_cons, hf b]
      have hany : (b :: gs).any (fun b => b.key = k) = true := by
        simp [List.any_cons, hb]
      rw [hany]
      simp only [if_true]
      ring
    · simp only [updateGroups, if_neg hb]
      rw [totalVals_cons, totalVals_cons, ih]
      have hany : (b :: gs).any (fun b => b.key = k) = gs.any (fun b => b.key = k) := by
        simp [List.any_cons, hb]
      rw [hany]
      ring

theorem totalCount_cons (b : Bucket) (gs : List Bucket) :
    totalCount (b :: gs) = b.count + totalCount gs := by
  simp [totalCount]

theorem totalCount_updateGroups (f : Bucket → Bucket) (k : List Char)
    (hf : ∀ b, (f b).count = b.count + 1) (gs : List Bucket) :
    totalCount (updateGroups f k gs)
      = totalCount gs + (if gs.any (fun b => b.key = k) then 1 else 0) := by
  induction gs with
  | nil => simp [updateGroups, totalCount]
  | cons b gs ih =>
    by_cases hb : b.key = k
    · simp only [updateGroups, if_pos hb]
      rw [totalCount_cons, totalCount_cons, hf b]
      have hany : (b :: gs).any (fun b => b.key = k) = true := by
        simp [List.any_cons, hb]
      rw [hany]
      simp only [if_true]
      omega
    · simp only [updateGroups, if_neg hb]
      rw [totalCount_cons, totalCount_cons, ih]
      have hany : (b :: gs).any (fun b => b.key = k) = gs.any (fun b => b.key = k) := by
        simp [List.any_cons, hb]
      rw [hany]
      omega

theorem totalVals_addRow (c : List Char) (yAxes : List (List Char)) (gs : List Bucket)
    (k lab : List Char) (row : Row) (hc : yAxes.count c = 1) :
    totalVals c (addRowToGroups yAxes gs k lab row)
      = totalVals c gs + sumQ (rowNum row c) := by
  unfold addRowToGroups
  have hf : ∀ b, sumQ (bucketGet (updateBucket yAxes row b).values c)
      = sumQ (bucketGet b.values c) + sumQ (rowNum row c) := fun b => by
    rw [updateBucket_get yAxes row b c hc, sumQ_append]
  by_cases hany : gs.any (fun b => b.key = k) = true
  · rw [if_pos hany, totalVals_updateGroups c _ k _ hf gs, hany]
    simp
  · rw [if_neg hany]
    rw [totalVals_updateGroups c _ k _ hf]
    have hany2 : (gs ++ [({ key := k, label := lab, values := [], count := 0 } : Bucket)]).any
        (fun b => b.key = k) = true := by
      simp [List.any_append]
    rw [hany2]
    simp only [if_true]
    have htv : totalVals c (gs ++ [({ key := k, label := lab, values := [], count := 0 } : Bucket)])
        = totalVals c gs := by
      unfold totalVals
      rw [List.map_append, sumQ_append]
      simp [bucketGet, sumQ]
    rw [htv]

theorem totalCount_addRow (yAxes : List (List Char)) (gs : List Bucket)
    (k lab : List Char) (row : Row) :
    totalCount (addRowToGroups yAxes gs k lab row) = totalCount gs + 1 := by
  unfold addRowToGroups
  have hf : ∀ b, (updateBucket yAxes row b).count = b.count + 1 := fun b => rfl
  by_cases hany : gs.any (fun b => b.key = k) = true
  · rw [if_pos hany, totalCount_updateGroups _ k hf gs, hany]
    simp
  · rw [if_neg hany]
    rw [totalCount_updateGroups _ k hf]
    have hany2 : (gs ++ [({ key := k, label := lab, values := [], count := 0 } : Bucket)]).any
        (fun b => b.key = k) = true := by
      simp [List.any_append]
    rw [hany2]
    simp only [if_true]
    have htv : totalCount (gs ++ [({ key := k, label := lab, values := [], count := 0 } : Bucket)])
        = totalCount gs := by
      unfold totalCount
      rw [List.map_append, List.sum_append]
      simp
    rw [htv]

theorem numericObs_cons_none {D : Type} (pd : Value → Option D) (x c : List Char)
    (row : Row) (rows : List Row) (hv : (objGet row x).bind pd = none) :
    numericObs pd x c (row :: rows) = numericObs pd x c rows := by
  unfold numericObs
  rw [List.filter_cons]
  simp [hv]

theorem numericObs_cons_some {D : Type} (pd : Value → Option D) (x c : List Char)
    (row : Row) (rows : List Row) (d : D) (hv : (objGet row x).bind pd = some d) :
    numericObs pd x c (row :: rows) = rowNum row c ++ numericObs pd x c rows := by
  unfold numericObs rowNum
  rw [List.filter_cons]
  simp only [hv, Option.isSome_some, if_pos]
  rw [List.filterMap_cons]
  cases hg : objGet row c with
  | none => simp
  | some v =>
    cases v with
    | num q => simp
    | str s => simp

theorem totalVals_groupFold {D : Type} (pd : Value → Option D) (key lab : D → List Char)
    (x c : List Char) (yAxes : List (List Char)) (hc : yAxes.count c = 1)
    (rows : List Row) (gs : List Bucket) :
    totalVals c (rows.foldl (groupStep pd key lab x yAxes) gs)
      = totalVals c gs + sumQ (numericObs pd x c rows) := by
  induction rows generalizing gs with
  | nil =>
    simp [numericObs, sumQ]
  | cons row rows ih =>
    rw [List.foldl_cons]
    cases hv : (objGet row x).bind pd with
    | none =>
      have hstep : groupStep pd key lab x yAxes gs row = gs := by
        unfold groupStep
        rw [hv]
      rw [hstep, ih gs, numericObs_cons_none pd x c row rows hv]
    | some d =>
      have hstep : groupStep pd key lab x yAxes gs row
          = addRowToGroups yAxes gs (key d) (lab d) row := by
        unfold groupStep
        rw [hv]
      rw [hstep, ih _, totalVals_addRow c yAxes gs (key d) (lab d) row hc,
        numericObs_cons_some pd x c row rows d hv, sumQ_append]
      ring

theorem totalCount_groupFold {D : Type} (pd : Value → Option D) (key lab : D → List Char)
    (x : List Char) (yAxes : List (List Char)) (rows : List Row) (gs : List Bucket) :
    totalCount (rows.foldl (groupStep pd key lab x yAxes) gs)
      = totalCount gs + rows.countP (fun r => ((objGet r x).bind pd).isSome) := by
  induction rows generalizing gs with
  | nil => simp [totalCount]
  | cons row rows ih =>
    rw [List.foldl_cons, List.countP_cons]
    cases hv : (objGet row x).bind pd with
    | none =>
      have hstep : groupStep pd key lab x yAxes gs row = gs := by
        unfold groupStep
        rw [hv]
      rw [hstep, ih gs]
      simp
    | some d =>
      have hstep : groupStep pd key lab x yAxes gs row
          = addRowToGroups yAxes gs (key d) (lab d) row := by
        unfold groupStep
        rw [hv]
      rw [hstep, ih _, totalCount_addRow yAxes gs (key d) (lab d) row]
      simp only [Option.isSome_some, if_true]
      omega

/-- C7: the conservation law for `method = "sum"`.  For every selected
value column (selected exactly once), the sum over all buckets of that
bucket's collected-observation sum — which is exactly what the `sum`
aggregation outputs per bucket, `aggValue .sum` being the plain sum of
the collected values — equals the sum of all numeric observations of the
column across the rows whose time value parses as a date; rows with an
unparseable time value contribute to no bucket.  The date parser, bucket
key and label are arbitrary, so this covers every granularity other than
`none`. -/
theorem c7_sum_conservation {D : Type} (pd : Value → Option D)
    (key lab : D → List Char) (x c : List Char) (yAxes : List (List Char))
    (rows : List Row) (hc : yAxes.count c = 1) :
    totalVals c (groupRows pd key lab x yAxes rows) = sumQ (numericObs pd x c rows)
    ∧ ∀ (cnt : Nat) (vals : List ℚ), aggValue .sum cnt vals = sumQ vals := by
  constructor
  · unfold groupRows
    rw [totalVals_groupFold pd key lab x c yAxes hc rows []]
    simp [totalVals, sumQ]
  · intro cnt vals
    cases vals with
    | nil => rfl
    | cons v vs => rfl

/-- C7, witness: a concrete two-row dataset with one valid and the sums
agreeing. -/
theorem c7_witness :
    totalVals ("V".data)
        (groupRows (D := Unit) (fun _ => some ()) (fun _ => "k".data) (fun _ => "L".data)
          ("T".data) ["V".data]
          [[("T".data, Value.str "t".data), ("V".data, Value.num 1)],
           [("T".data, Value.str "t".data), ("V".data, Value.num 2)]])
      = sumQ (numericObs (D := Unit) (fun _ => some ()) ("T".data) ("V".data)
          [[("T".data, Value.str "t".data), ("V".data, Value.num 1)],
           [("T".data, Value.str "t".data), ("V".data, Value.num 2)]])
    ∧ ∀ (cnt : Nat) (vals : List ℚ), aggValue .sum cnt vals = sumQ vals :=
  c7_sum_conservation (D := Unit) (fun _ => some ()) (fun _ => "k".data) (fun _ => "L".data)
    ("T".data) ("V".data) ["V".data]
    [[("T".data, Value.str "t".data), ("V".data, Value.num 1)],
     [("T".data, Value.str "t".data), ("V".data, Value.num 2)]]
    (by decide)

theorem round2_zero : round2 0 = 0 := by
  unfold round2
  norm_num

theorem round2_natCast (n : Nat) : round2 ((n : ℚ)) = (n : ℚ) := by
  unfold round2
  have h : ((n : ℚ) * 100 + 1/2) = ((100 * n : ℤ) : ℚ) + 1/2 := by
    push_cast
    ring
  rw [h, add_comm, Int.floor_add_int]
  have hf : ⌊(1 : ℚ)/2⌋ = 0 := by norm_num
  rw [hf]
  push_cast
  ring

theorem objGet_setFold_not_mem (ys : List (List Char)) (g : List Char → Value)
    (r0 : Row) (y : List Char) (hy : ¬ y ∈ ys) :
    objGet (ys.foldl (fun row k => objSet row k (g k)) r0) y = objGet r0 y := by
  induction ys generalizing r0 with
  | nil => rfl
  | cons k ks ih =>
    rw [List.foldl_cons]
    rw [ih (objSet r0 k (g k)) (fun hc => hy (List.mem_cons_of_mem _ hc))]
    rw [objGet_objSet, if_neg (fun hc => hy (by rw [← hc]; exact List.mem_cons_self k ks))]

theorem objGet_setFold (ys : List (List Char)) (g : List Char → Value)
    (r0 : Row) (y : List Char) (hy : y ∈ ys) :
    objGet (ys.foldl (fun row k => objSet row k (g k)) r0) y = some (g y) := by
  induction ys generalizing r0 with
  | nil => simp at hy
  | cons k ks ih =>
    by_cases hyk : y ∈ ks
    · rw [List.foldl_cons]
      exact ih (objSet r0 k (g k)) hyk
    · have hk : y = k := by
        rcases List.mem_cons.mp hy with h | h
        · exact h
        · exact absurd h hyk
      rw [List.foldl_cons, objGet_setFold_not_mem ks g _ y hyk,
        objGet_objSet, if_pos hk.symm, hk]

theorem insertStable_perm {A : Type} (lt : A → A → Bool) (a : A) (l : List A) :
    (insertStable lt a l).Perm (a :: l) := by
  induction l with
  | nil => exact List.Perm.refl _
  | cons y ys ih =>
    unfold insertStable
    by_cases h : lt a y
    · rw [if_pos h]
    · rw [if_neg h]
      exact (ih.cons y).trans (List.Perm.swap a y ys)

theorem sortByJS_foldl_perm {A : Type} (lt : A → A → Bool) (l acc : List A) :
    (l.foldl (fun acc x => insertStable lt x acc) acc).Perm (acc ++ l) := by
  induction l generalizing acc with
  | nil => simp
  | cons x xs ih =>
    rw [List.foldl_cons]
    refine (ih (insertStable lt x acc)).trans ?_
    refine (List.Perm.append_right xs (insertStable_perm lt x acc)).trans ?_
    exact List.perm_middle.symm

theorem sortByJS_perm {A : Type} (lt : A → A → Bool) (l : List A) :
    (sortByJS lt l).Perm l := by
  unfold sortByJS
  simpa using sortByJS_foldl_perm lt l []

/-- C8 (amended): with `method = "count"`, every output row comes from a
bucket whose shared row count `n` satisfies `n ≤` the number of input
rows; each selected column's output value is `n` when the bucket
collected at least one numeric observation for that column and `0`
otherwise (so the output *does* depend on the column's values, only
through emptiness); and the bucket counts sum to the number of rows
whose time value parses as a date. -/
theorem c8_count_aggregation {D : Type} (pd : Value → Option D)
    (key lab : D → List Char) (lt : Row → Row → Bool) (x : List Char)
    (yAxes : List (List Char)) (rows : List Row) :
    (∀ row ∈ aggregate pd key lab lt x yAxes .count rows,
      ∃ b ∈ groupRows pd key lab x yAxes rows,
        (∀ y ∈ yAxes, objGet row y
          = some (.num (if (bucketGet b.values y).isEmpty then 0 else (b.count : ℚ))))
        ∧ b.count ≤ rows.length)
    ∧ totalCount (groupRows pd key lab x yAxes rows)
        = rows.countP (fun r => ((objGet r x).bind pd).isSome) := by
  have hcount : totalCount (groupRows pd key lab x yAxes rows)
      = rows.countP (fun r => ((objGet r x).bind pd).isSome) := by
    unfold groupRows
    rw [totalCount_groupFold pd key lab x yAxes rows []]
    simp [totalCount]
  refine ⟨?_, hcount⟩
  intro row hrow
  have hmem : row ∈ (groupRows pd key lab x yAxes rows).map
      (toAggRow x yAxes .count) := by
    unfold aggregate at hrow
    exact (sortByJS_perm lt _).mem_iff.mp hrow
  obtain ⟨b, hb, hbrow⟩ := List.mem_map.mp hmem
  refine ⟨b, hb, ?_, ?_⟩
  · intro y hy
    rw [← hbrow]
    unfold toAggRow
    rw [objGet_setFold yAxes
      (fun k => .num (round2 (aggValue .count b.count (bucketGet b.values k)))) _ y hy]
    congr 1
    cases hemp : (bucketGet b.values y).isEmpty with
    | true =>
      have hagg : aggValue .count b.count (bucketGet b.values y) = 0 := by
        unfold aggValue
        rw [hemp]
        simp
      rw [hagg, round2_zero]
      simp
    | false =>
      have hagg : aggValue .count b.count (bucketGet b.values y) = (b.count : ℚ) := by
        unfold aggValue
        rw [hemp]
        simp
      rw [hagg, round2_natCast]
      simp
  · have hle : b.count ≤ totalCount (groupRows pd key lab x yAxes rows) := by
      unfold totalCount
      exact List.single_le_sum (fun n _ => Nat.zero_le n) b.count
        (List.mem_map_of_mem Bucket.count hb)
    rw [hcount] at hle
    exact hle.trans (List.countP_le_length _)

/-- C8, witness: the amended count-aggregation statement at a concrete
one-row dataset. -/
theorem c8_witness :
    (∀ row ∈ aggregate (D := Unit) (fun _ => some ()) (fun _ => "k".data)
        (fun _ => "L".data) (fun _ _ => false) ("T".data) ["V".data] .count
        [[("T".data, Value.str "t".data), ("V".data, Value.str "s".data)]],
      ∃ b ∈ groupRows (D := Unit) (fun _ => some ()) (fun _ => "k".data)
          (fun _ => "L".data) ("T".data) ["V".data]
          [[("T".data, Value.str "t".data), ("V".data, Value.str "s".data)]],
        (∀ y ∈ ["V".data], objGet row y
          = some (.num (if (bucketGet b.values y).isEmpty then 0 else (b.count : ℚ))))
        ∧ b.count ≤ ([[("T".data, Value.str "t".data),
            ("V".data, Value.str "s".data)]] : List Row).length)
    ∧ totalCount (groupRows (D := Unit) (fun _ => some ()) (fun _ => "k".data)
          (fun _ => "L".data) ("T".data) ["V".data]
          [[("T".data, Value.str "t".data), ("V".data, Value.str "s".data)]])
        = ([[("T".data, Value.str "t".data), ("V".data, Value.str "s".data)]] : List Row).countP
            (fun r => ((objGet r ("T".data)).bind (fun _ => some ())).isSome) :=
  c8_count_aggregation (D := Unit) (fun _ => some ()) (fun _ => "k".data)
    (fun _ => "L".data) (fun _ _ => false) ("T".data) ["V".data]
    [[("T".data, Value.str "t".data), ("V".data, Value.str "s".data)]]
